import Mathlib

/-!
# Verification of the better-gemini-mcp execution core

A shallow embedding, in Lean 4, of the execution-orchestration and
response-management subsystem of the `better-gemini-mcp` server:

* the response chunker (`src/utils/responseChunker.ts`, `chunkResponse`),
* the response cache (`src/utils/responseCache.ts`, `getResponse` / `getChunk` /
  `clearExpired` / `cacheResponse`),
* the command executor (`src/utils/commandExecutor.ts`, `executeCommand`) and the
  setup wizard's command runner (`src/setup/wizard.ts`, `runCommand`),
* the Gemini CLI orchestrator (`src/utils/geminiExecutor.ts`, `buildGeminiArgs`,
  `isQuotaError`, `executeGeminiCLI`, `MODEL_TIERS`, `SYSTEM_PROMPT`),
* the tool-level error classification (`src/tools/deep-research.tool.ts`),
* the path guard (`src/utils/pathValidator.ts`, `validatePath`,
  `isWithinProjectRoot`) together with a model of Node's POSIX `path` functions
  (`resolve`, `normalize`, `isAbsolute`) that it calls.

JavaScript strings are modelled as `List Char` (`Str`); the event-driven pieces
(child processes, timers, the wall clock, `JSON.parse`) are modelled by explicit
parameters describing the behaviour of the external world.
-/

/-- JavaScript strings are modelled as lists of characters. -/
abbrev Str := List Char

/-- The character list of a Lean string literal (used to write concrete values). -/
def str (s : String) : Str := s.data

-- ===========================================================================
-- Segmenter: `chunkResponse` from src/utils/responseChunker.ts
-- ===========================================================================

/-- `DEFAULTS.RESPONSE_CHUNK_SIZE_KB` from src/constants.ts. -/
def RESPONSE_CHUNK_SIZE_KB : Nat := 10

/-- A chunk of a large response, `CachedChunk` from src/types.ts:
`{ content, index (1-based), total }`. -/
structure CachedChunk where
  content : Str
  index : Nat
  total : Nat
  deriving Repr, DecidableEq

/-- JavaScript `s.lastIndexOf("\n", pos)`: the largest index `j ≤ pos` (and
`j < s.length`) with `s[j] = '\n'`; `none` plays the role of `-1`. -/
def lastNl (s : Str) : Nat → Option Nat
  | 0 => if s[0]? = some '\n' then some 0 else none
  | p + 1 => if s[p+1]? = some '\n' then some (p+1) else lastNl s p

/-- The `endPosition` computed by one iteration of the `chunkResponse` loop
(src/utils/responseChunker.ts, lines 41–54): provisionally `pos + c`; if that
is not past the end, the last newline at or before it is used instead (cutting
just after the newline) provided it lies strictly beyond
`searchStart = max(pos, pos + c - 500)`; otherwise the cut is at the end of
the string.  (JS `lastIndexOf` returns `-1` when absent, which is never
`> searchStart`, hence the `none ⇒ pos + c` case; Nat subtraction in
`pos + c - 500` agrees with the JS `Math.max` against a negative number.) -/
def nextCut (s : Str) (c pos : Nat) : Nat :=
  if pos + c < s.length then
    match lastNl s (pos + c) with
    | some j => if max pos (pos + c - 500) < j then j + 1 else pos + c
    | none => pos + c
  else s.length

/-- The `while (currentPosition < response.length)` loop of `chunkResponse`
(src/utils/responseChunker.ts).  `fuel` bounds the iteration count (each
iteration advances `pos` by at least one character whenever the byte target is
positive, so `fuel = s.length` is always enough); `pos` is `currentPosition`
and `idx` is `chunkIndex`.  The `total` field is `0` here and back-filled by
`chunkResponse`, as in the source. -/
def chunkLoop (s : Str) (c : Nat) : Nat → Nat → Nat → List CachedChunk
  | 0, _, _ => []
  | fuel + 1, pos, idx =>
    if pos < s.length then
      ⟨(s.drop pos).take (nextCut s c pos - pos), idx, 0⟩ ::
        chunkLoop s c fuel (nextCut s c pos) (idx + 1)
    else []

/-- `chunkResponse(response, chunkSizeKB)` from src/utils/responseChunker.ts:
split a response into chunks of at most `chunkSizeKB * 1024` characters
(plus possibly one trailing newline), preferring newline boundaries. -/
def chunkResponse (response : Str) (chunkSizeKB : Nat) : List CachedChunk :=
  let chunkSizeBytes := chunkSizeKB * 1024
  if response.length ≤ chunkSizeBytes then
    [⟨response, 1, 1⟩]
  else
    let chunks := chunkLoop response chunkSizeBytes response.length 0 1
    chunks.map fun ch => ⟨ch.content, ch.index, chunks.length⟩

/-- `needsChunking(response, chunkSizeKB)` from src/utils/responseChunker.ts. -/
def needsChunking (response : Str) (chunkSizeKB : Nat) : Bool :=
  decide (response.length > chunkSizeKB * 1024)

-- ===========================================================================
-- Segmenter lemmas
-- ===========================================================================

theorem lastNl_spec (s : Str) : ∀ n j, lastNl s n = some j → j ≤ n ∧ s[j]? = some '\n' := by
  intro n
  induction n with
  | zero =>
    intro j h
    unfold lastNl at h
    split at h
    · cases h; exact ⟨Nat.le_refl 0, by assumption⟩
    · cases h
  | succ p ih =>
    intro j h
    unfold lastNl at h
    split at h
    · cases h; exact ⟨Nat.le_refl _, by assumption⟩
    · obtain ⟨h1, h2⟩ := ih j h
      exact ⟨Nat.le_succ_of_le h1, h2⟩

theorem nextCut_cases (s : Str) (c pos : Nat) :
    (nextCut s c pos = s.length ∧ s.length ≤ pos + c) ∨
    (∃ j, lastNl s (pos + c) = some j ∧ max pos (pos + c - 500) < j ∧
      nextCut s c pos = j + 1 ∧ pos + c < s.length) ∨
    (nextCut s c pos = pos + c ∧ pos + c < s.length) := by
  unfold nextCut
  by_cases h : pos + c < s.length
  · rw [if_pos h]
    cases hnl : lastNl s (pos + c) with
    | none => right; right; exact ⟨rfl, h⟩
    | some j =>
      by_cases hss : max pos (pos + c - 500) < j
      · right; left
        refine ⟨j, rfl, hss, ?_, h⟩
        show (if max pos (pos + c - 500) < j then j + 1 else pos + c) = j + 1
        rw [if_pos hss]
      · right; right
        refine ⟨?_, h⟩
        show (if max pos (pos + c - 500) < j then j + 1 else pos + c) = pos + c
        rw [if_neg hss]
  · rw [if_neg h]
    left
    exact ⟨rfl, by omega⟩

theorem nextCut_gt (s : Str) (c pos : Nat) (hc : 1 ≤ c) (hp : pos < s.length) :
    pos < nextCut s c pos := by
  rcases nextCut_cases s c pos with ⟨h1, h2⟩ | ⟨j, _, hss, heq, _⟩ | ⟨h1, _⟩ <;> omega

theorem nextCut_le_length (s : Str) (c pos : Nat) : nextCut s c pos ≤ s.length := by
  rcases nextCut_cases s c pos with ⟨h1, h2⟩ | ⟨j, hj, hss, heq, hlt⟩ | ⟨h1, hlt⟩
  · omega
  · have := (lastNl_spec s (pos + c) j hj).1
    omega
  · omega

theorem nextCut_sub_le (s : Str) (c pos : Nat) : nextCut s c pos - pos ≤ c + 1 := by
  rcases nextCut_cases s c pos with ⟨h1, h2⟩ | ⟨j, hj, hss, heq, hlt⟩ | ⟨h1, hlt⟩
  · omega
  · have := (lastNl_spec s (pos + c) j hj).1
    omega
  · omega

theorem nextCut_eq_max (s : Str) (c pos : Nat) (h : nextCut s c pos = pos + c + 1) :
    s[pos + c]? = some '\n' := by
  rcases nextCut_cases s c pos with ⟨h1, h2⟩ | ⟨j, hj, hss, heq, hlt⟩ | ⟨h1, hlt⟩
  · omega
  · have hspec := lastNl_spec s (pos + c) j hj
    have : j = pos + c := by omega
    rw [this] at hspec
    exact hspec.2
  · omega

theorem chunkLoop_join (s : Str) (c : Nat) (hc : 1 ≤ c) :
    ∀ fuel pos idx, s.length - pos ≤ fuel →
      ((chunkLoop s c fuel pos idx).map (·.content)).flatten = s.drop pos := by
  intro fuel
  induction fuel with
  | zero =>
    intro pos idx h
    have : s.length ≤ pos := by omega
    simp [chunkLoop, List.drop_eq_nil_of_le this]
  | succ fuel ih =>
    intro pos idx h
    unfold chunkLoop
    split
    · next hp =>
      have h1 : pos < nextCut s c pos := nextCut_gt s c pos hc hp
      have h2 : nextCut s c pos ≤ s.length := nextCut_le_length s c pos
      simp only [List.map_cons, List.flatten_cons]
      rw [ih (nextCut s c pos) (idx + 1) (by omega)]
      have : s.drop (nextCut s c pos) = (s.drop pos).drop (nextCut s c pos - pos) := by
        rw [List.drop_drop]
        congr 1
        omega
      rw [this, List.take_append_drop]
    · next hp =>
      have : s.length ≤ pos := by omega
      simp [List.drop_eq_nil_of_le this]

theorem chunkLoop_indices (s : Str) (c : Nat) :
    ∀ fuel pos idx,
      (chunkLoop s c fuel pos idx).map (·.index) =
        List.range' idx (chunkLoop s c fuel pos idx).length := by
  intro fuel
  induction fuel with
  | zero => intro pos idx; simp [chunkLoop]
  | succ fuel ih =>
    intro pos idx
    unfold chunkLoop
    split
    · simp only [List.map_cons, List.length_cons, List.range'_succ]
      rw [ih]
    · simp

theorem chunkLoop_bounds (s : Str) (c : Nat) (hc : 1 ≤ c) :
    ∀ fuel pos idx, ∀ ch ∈ chunkLoop s c fuel pos idx,
      ch.content ≠ [] ∧ ch.content.length ≤ c + 1 ∧
        (ch.content.length = c + 1 → ch.content.getLast? = some '\n') := by
  intro fuel
  induction fuel with
  | zero => intro pos idx ch h; simp [chunkLoop] at h
  | succ fuel ih =>
    intro pos idx ch h
    unfold chunkLoop at h
    split at h
    · next hp =>
      rcases List.mem_cons.mp h with heq | hmem
      · subst heq
        have h1 : pos < nextCut s c pos := nextCut_gt s c pos hc hp
        have h2 : nextCut s c pos ≤ s.length := nextCut_le_length s c pos
        have h3 : nextCut s c pos - pos ≤ c + 1 := nextCut_sub_le s c pos
        have hlen : ((s.drop pos).take (nextCut s c pos - pos)).length =
            nextCut s c pos - pos := by
          simp only [List.length_take, List.length_drop]
          omega
        refine ⟨?_, ?_, ?_⟩
        · show (s.drop pos).take (nextCut s c pos - pos) ≠ []
          intro hnil
          rw [hnil] at hlen
          simp only [List.length_nil] at hlen
          omega
        · show ((s.drop pos).take (nextCut s c pos - pos)).length ≤ c + 1
          rw [hlen]
          exact h3
        · show ((s.drop pos).take (nextCut s c pos - pos)).length = c + 1 →
            ((s.drop pos).take (nextCut s c pos - pos)).getLast? = some '\n'
          intro hmax
          rw [hlen] at hmax
          have hcut : nextCut s c pos = pos + c + 1 := by omega
          have hnl : s[pos + c]? = some '\n' := nextCut_eq_max s c pos hcut
          have harg : pos + (c + 1 - 1) = pos + c := by omega
          rw [List.getLast?_eq_getElem?, hlen, hmax, List.getElem?_take,
            if_pos (by omega), List.getElem?_drop, harg, hnl]
      · exact ih (nextCut s c pos) (idx + 1) ch hmem
    · simp at h

/-- **C2.** For every string `s` and positive `chunkSizeKB = k` (byte target
`k * 1024`), concatenating the chunks of `chunkResponse s k` in index order
(the list is in index order: indices are `1, 2, …`) reproduces `s` exactly;
and when `s.length ≤ k * 1024`, the result is exactly one chunk with
`index = 1`, `total = 1` and `content = s`. -/
theorem chunkResponse_roundtrip (s : Str) (k : Nat) (hk : 1 ≤ k) :
    ((chunkResponse s k).map (·.content)).flatten = s ∧
    (chunkResponse s k).map (·.index) = List.range' 1 (chunkResponse s k).length ∧
    (s.length ≤ k * 1024 → chunkResponse s k = [⟨s, 1, 1⟩]) := by
  unfold chunkResponse
  by_cases h : s.length ≤ k * 1024
  · rw [if_pos h]
    exact ⟨by simp, by simp [List.range'], fun _ => rfl⟩
  · rw [if_neg h]
    have hc : 1 ≤ k * 1024 := by
      have : 1 * 1024 ≤ k * 1024 := Nat.mul_le_mul_right _ hk
      omega
    refine ⟨?_, ?_, fun hcon => absurd hcon h⟩
    · rw [List.map_map]
      have hcomp :
          ((fun ch : CachedChunk => ch.content) ∘ fun ch : CachedChunk =>
            (⟨ch.content, ch.index,
              (chunkLoop s (k * 1024) s.length 0 1).length⟩ : CachedChunk)) =
          fun ch : CachedChunk => ch.content := rfl
      rw [hcomp]
      simpa using chunkLoop_join s (k * 1024) hc s.length 0 1 (by omega)
    · rw [List.map_map, List.length_map]
      have hcomp :
          ((fun ch : CachedChunk => ch.index) ∘ fun ch : CachedChunk =>
            (⟨ch.content, ch.index,
              (chunkLoop s (k * 1024) s.length 0 1).length⟩ : CachedChunk)) =
          fun ch : CachedChunk => ch.index := rfl
      rw [hcomp]
      exact chunkLoop_indices s (k * 1024) s.length 0 1

/-- Witness for C2 at a concrete input. -/
theorem chunkResponse_roundtrip_witness :
    1 ≤ 1 ∧
    (((chunkResponse (str "hello") 1).map (·.content)).flatten = str "hello" ∧
      (chunkResponse (str "hello") 1).map (·.index) =
        List.range' 1 (chunkResponse (str "hello") 1).length ∧
      ((str "hello").length ≤ 1 * 1024 →
        chunkResponse (str "hello") 1 = [⟨str "hello", 1, 1⟩])) :=
  ⟨Nat.le_refl 1, chunkResponse_roundtrip (str "hello") 1 (Nat.le_refl 1)⟩

/-- **C10.** For every string longer than the byte target `c = k * 1024`
(`k` a positive chunk size in KB), every chunk produced by `chunkResponse`
has non-empty content of length at most `c + 1`, and a chunk reaches length
`c + 1` only by including a newline (which then sits at the end of the
chunk, at offset `c`, the provisional cut position). -/
theorem chunkResponse_size_bounds (s : Str) (k : Nat) (hk : 1 ≤ k)
    (hbig : k * 1024 < s.length) :
    ∀ ch ∈ chunkResponse s k, ch.content ≠ [] ∧ ch.content.length ≤ k * 1024 + 1 ∧
      (ch.content.length = k * 1024 + 1 → ch.content.getLast? = some '\n') := by
  intro ch h
  have hc : 1 ≤ k * 1024 := by
    have : 1 * 1024 ≤ k * 1024 := Nat.mul_le_mul_right _ hk
    omega
  unfold chunkResponse at h
  rw [if_neg (by omega)] at h
  obtain ⟨ch0, hch0, heq⟩ := List.mem_map.mp h
  have hbnd := chunkLoop_bounds s (k * 1024) hc s.length 0 1 ch0 hch0
  rw [← heq]
  exact hbnd

/-- Concrete oversized input for the C10 witness: 1024 `A`s, a newline exactly
at the provisional cut position, then 5 `B`s. -/
def c10Input : Str := List.replicate 1024 'A' ++ '\n' :: List.replicate 5 'B'

set_option maxRecDepth 100000 in
/-- Witness for C10 at a concrete input. -/
theorem chunkResponse_size_bounds_witness :
    (1 ≤ 1 ∧ 1 * 1024 < c10Input.length) ∧
    (∀ ch ∈ chunkResponse c10Input 1,
      ch.content ≠ [] ∧ ch.content.length ≤ 1 * 1024 + 1 ∧
        (ch.content.length = 1 * 1024 + 1 → ch.content.getLast? = some '\n')) :=
  ⟨⟨Nat.le_refl 1, by decide⟩,
    chunkResponse_size_bounds c10Input 1 (Nat.le_refl 1) (by decide)⟩

-- ===========================================================================
-- Segment Store: the response cache from src/utils/responseCache.ts
-- ===========================================================================

/-- `DEFAULTS.CACHE_TTL_MS` from src/constants.ts (1 hour). -/
def CACHE_TTL_MS : Nat := 3600000

/-- `CacheEntry` from src/types.ts. Timestamps are milliseconds (`Date.now()`). -/
structure CacheEntry where
  chunks : List CachedChunk
  createdAt : Nat
  expiresAt : Nat
  deriving Repr, DecidableEq

/-- The module-level `Map<string, CacheEntry>` is modelled as an association
list (insertion at the front, first binding wins on lookup). -/
abbrev CacheMap := List (Str × CacheEntry)

/-- `Map.get`. -/
def mapLookup (m : CacheMap) (key : Str) : Option CacheEntry :=
  List.lookup key m

/-- `Map.delete`. -/
def mapDelete (m : CacheMap) (key : Str) : CacheMap :=
  m.filter fun p => !(p.1 == key)

/-- `Map.set` (JS `set` overwrites an existing binding). -/
def mapSet (m : CacheMap) (key : Str) (entry : CacheEntry) : CacheMap :=
  (key, entry) :: mapDelete m key

/-- `cacheResponse(chunks, ttlMs)` from src/utils/responseCache.ts: store a
`CacheEntry` with `createdAt = now` and `expiresAt = now + ttlMs` under a
freshly generated key.  Key generation (`generateCacheKey`, `Math.random` and
`Date.now`) is external nondeterminism, so the key is a parameter here; the
scheduling of the background sweep has no effect on the map itself. -/
def cacheResponse (m : CacheMap) (key : Str) (now : Nat) (chunks : List CachedChunk)
    (ttlMs : Nat) : CacheMap :=
  mapSet m key ⟨chunks, now, now + ttlMs⟩

/-- `getResponse(key)` from src/utils/responseCache.ts: `null` when the key is
absent; when the entry is expired (`Date.now() > entry.expiresAt`) the entry
is deleted and `null` returned; otherwise the entry.  Returns the result
together with the possibly updated map. -/
def getResponse (m : CacheMap) (now : Nat) (key : Str) : Option CacheEntry × CacheMap :=
  match mapLookup m key with
  | none => (none, m)
  | some entry =>
    if now > entry.expiresAt then (none, mapDelete m key)
    else (some entry, m)

/-- `getChunk(key, chunkIndex)` from src/utils/responseCache.ts: the chunk at
1-based `chunkIndex`, or `null` when the bundle is absent/expired or the index
is out of `[1, chunks.length]`.  `chunkIndex` is an `Int`, as a JS number may
be negative. -/
def getChunk (m : CacheMap) (now : Nat) (key : Str) (chunkIndex : Int) :
    Option CachedChunk × CacheMap :=
  match getResponse m now key with
  | (none, m') => (none, m')
  | (some entry, m') =>
    if chunkIndex < 1 ∨ chunkIndex > (entry.chunks.length : Int) then (none, m')
    else (entry.chunks[(chunkIndex - 1).toNat]?, m')

/-- `clearExpired()` from src/utils/responseCache.ts (the body of the periodic
sweep): remove every entry with `now > entry.expiresAt`; also returns the
number of entries removed. -/
def clearExpired (m : CacheMap) (now : Nat) : CacheMap × Nat :=
  (m.filter fun p => !(decide (now > p.2.expiresAt)),
   (m.filter fun p => decide (now > p.2.expiresAt)).length)

/-- `deleteCache(key)` from src/utils/responseCache.ts. -/
def deleteCache (m : CacheMap) (key : Str) : CacheMap × Bool :=
  (mapDelete m key, (mapLookup m key).isSome)

theorem mapDelete_lookup (m : CacheMap) (key : Str) :
    mapLookup (mapDelete m key) key = none := by
  induction m with
  | nil => rfl
  | cons p rest ih =>
    obtain ⟨k, v⟩ := p
    unfold mapDelete mapLookup at *
    simp only [List.filter_cons]
    by_cases h : k = key
    · simp only [h, beq_self_eq_true, Bool.not_true, if_false]
      exact ih
    · have hbeq : (k == key) = false := beq_eq_false_iff_ne.mpr h
      simp only [hbeq, Bool.not_false, if_true, List.lookup_cons]
      have hbeq2 : (key == k) = false := beq_eq_false_iff_ne.mpr (Ne.symm h)
      simp only [hbeq2]
      exact ih

/-- **C7.** `getChunk(k, i)` returns the stored chunk at 1-based index `i`
exactly when a bundle is present under `k` (stored and not deleted), the
current time is not past its `expiresAt`, and `i ∈ [1, chunks.length]`; in
every other case it returns `null`.  The lazy expiry test of
`getResponse`/`getChunk` (`now > expiresAt`) is the same test the periodic
sweep (`clearExpired`) applies; a deleted key yields `null`; and `cacheResponse`
stores `createdAt = now`, `expiresAt = now + ttlMs`, with default TTL
3600000 ms (1 hour). -/
theorem getChunk_spec (m : CacheMap) (now : Nat) (key : Str) (i : Int) :
    (mapLookup m key = none → (getChunk m now key i).1 = none) ∧
    (∀ e, mapLookup m key = some e →
      (getChunk m now key i).1 =
        if now > e.expiresAt ∨ i < 1 ∨ i > (e.chunks.length : Int) then none
        else e.chunks[(i - 1).toNat]?) ∧
    (∀ e, mapLookup m key = some e →
      ((getResponse m now key).1 = none ↔ now > e.expiresAt)) ∧
    (∀ e, (key, e) ∈ m → ((key, e) ∈ (clearExpired m now).1 ↔ ¬ now > e.expiresAt)) ∧
    (getChunk (deleteCache m key).1 now key i).1 = none ∧
    (∀ chunks ttlMs,
      mapLookup (cacheResponse m key now chunks ttlMs) key =
        some ⟨chunks, now, now + ttlMs⟩) ∧
    CACHE_TTL_MS = 3600000 := by
  refine ⟨?_, ?_, ?_, ?_, ?_, ?_, rfl⟩
  · intro h
    simp [getChunk, getResponse, h]
  · intro e he
    simp only [getChunk, getResponse, he]
    by_cases hexp : now > e.expiresAt
    · simp [hexp]
    · by_cases h1 : i < 1
      · simp [hexp, h1]
      · by_cases h2 : i > (e.chunks.length : Int)
        · simp [hexp, h1, h2]
        · simp [hexp, h1, h2]
  · intro e he
    unfold getResponse
    rw [he]
    by_cases hexp : now > e.expiresAt
    · simp [hexp]
    · simp [hexp]
  · intro e hmem
    unfold clearExpired
    simp [List.mem_filter, hmem]
  · have hdel : mapLookup (deleteCache m key).1 key = none := mapDelete_lookup m key
    simp [getChunk, getResponse, hdel]
  · intro chunks ttlMs
    simp [cacheResponse, mapSet, mapLookup, List.lookup]

/-- Concrete cache entry and map for the C7 witness. -/
def c7Entry : CacheEntry := ⟨[⟨str "x", 1, 1⟩], 0, 3600000⟩

/-- Concrete cache map for the C7 witness. -/
def c7Map : CacheMap := [(str "k", c7Entry)]

/-- Witness for C7 at a concrete input: a present, unexpired bundle with one
chunk, asked for index 1. -/
theorem getChunk_spec_witness :
    (getChunk c7Map 100 (str "k") 1).1 =
      (if 100 > c7Entry.expiresAt ∨ (1 : Int) < 1 ∨ (1 : Int) > (c7Entry.chunks.length : Int)
       then none else c7Entry.chunks[((1 : Int) - 1).toNat]?) :=
  (getChunk_spec c7Map 100 (str "k") 1).2.1 c7Entry (by decide)

-- ===========================================================================
-- Process Runner: executeCommand (src/utils/commandExecutor.ts) and the setup
-- wizard's runCommand (src/setup/wizard.ts)
-- ===========================================================================

/-- The JavaScript whitespace class used by `String.prototype.trim`
(WhiteSpace ∪ LineTerminator). -/
def jsWhitespace : List Char :=
  ['\t', '\n', '\x0b', '\x0c', '\r', ' ', ' ', ' ', ' ', ' ',
   ' ', ' ', ' ', ' ', ' ', ' ', ' ', ' ',
   ' ', ' ', ' ', ' ', ' ', '　', '﻿']

/-- JavaScript `s.trim()`: strip leading and trailing whitespace. -/
def jsTrim (s : Str) : Str :=
  ((s.dropWhile (· ∈ jsWhitespace)).reverse.dropWhile (· ∈ jsWhitespace)).reverse

/-- The observable behaviour of one spawned child process: whether the spawn
failed (`error` event message), the `close` code (`none` models JS `null`,
i.e. killed by a signal), the streamed stdout/stderr chunks, and the wall-time
from spawn to completion in milliseconds. -/
structure ProcBehavior where
  spawnError : Option Str
  exitCode : Option Int
  stdoutChunks : List Str
  stderrChunks : List Str
  durationMs : Nat
  deriving Repr, DecidableEq

/-- Rendering of a JS `number | null` exit code into `${code}`. -/
def exitCodeStr : Option Int → Str
  | none => str "null"
  | some n => (toString n).data

/-- `executeCommand(command, args, onProgress?)` from
src/utils/commandExecutor.ts, as a function of the child's behaviour:
a spawn error rejects with `Failed to spawn command '…': …`; exit code `0`
resolves with `stdout.trim()`; any other close code rejects with
`Command failed with exit code …: …` carrying the trimmed stderr (or
`Unknown error`).  There is no timer anywhere in the source function, so the
result does not depend on `durationMs`. -/
def executeCommand (command : Str) (b : ProcBehavior) : Except Str Str :=
  match b.spawnError with
  | some m => .error (str "Failed to spawn command '" ++ command ++ str "': " ++ m)
  | none =>
    match b.exitCode with
    | some 0 => .ok (jsTrim b.stdoutChunks.flatten)
    | code =>
      let sanitizedStderr :=
        if jsTrim b.stderrChunks.flatten = [] then str "Unknown error"
        else jsTrim b.stderrChunks.flatten
      .error (str "Command failed with exit code " ++ exitCodeStr code ++ str ": "
        ++ sanitizedStderr)

/-- The result of the setup wizard's `runCommand`, which (unlike
`executeCommand`) has a kill-on-timeout path. -/
structure RunResult where
  result : Except Str Str
  childKilled : Bool
  deriving Repr

/-- `runCommand(command, args, timeoutMs = 60000)` from src/setup/wizard.ts:
a `setTimeout` of `timeoutMs` kills the child and rejects with
`Command timed out after …ms` if the child has not closed by then; otherwise
exit code `0` resolves with `stdout.trim()` and any other close code rejects
with the trimmed stderr (or `Command failed with exit code …`). -/
def runCommand (command : Str) (b : ProcBehavior) (timeoutMs : Nat) : RunResult :=
  match b.spawnError with
  | some m => ⟨.error (str "Failed to spawn '" ++ command ++ str "': " ++ m), false⟩
  | none =>
    if b.durationMs > timeoutMs then
      ⟨.error (str "Command timed out after " ++ (toString timeoutMs).data ++ str "ms"),
        true⟩
    else
      match b.exitCode with
      | some 0 => ⟨.ok (jsTrim b.stdoutChunks.flatten), false⟩
      | code =>
        ⟨.error (if jsTrim b.stderrChunks.flatten = []
          then str "Command failed with exit code " ++ exitCodeStr code
          else jsTrim b.stderrChunks.flatten), false⟩

/-- `DEFAULT_RUN_TIMEOUT` — the default `timeoutMs = 60000` of `runCommand`. -/
def RUN_COMMAND_DEFAULT_TIMEOUT_MS : Nat := 60000

/-- **C8, counterexample.** The claim says `executeCommand` resolves with the
entire accumulated stdout *unmodified*; the source resolves with
`stdout.trim()`.  With accumulated stdout `"hello\n"` and exit code 0 the
promise resolves with `"hello"`, which differs from the accumulated stdout. -/
theorem executeCommand_unmodified_counterexample :
    executeCommand (str "gemini") ⟨none, some 0, [str "hello\n"], [], 5⟩ =
      .ok (str "hello") ∧
    (⟨none, some 0, [str "hello\n"], [], 5⟩ : ProcBehavior).stdoutChunks.flatten =
      str "hello\n" ∧
    str "hello" ≠ str "hello\n" := by
  refine ⟨rfl, rfl, by decide⟩

/-- **C8, amended.** When the child closes with exit code 0, `executeCommand`
resolves with the accumulated stdout *with leading and trailing whitespace
trimmed* (`stdout.trim()`); for every close code other than 0 (including
`null`) it rejects. -/
theorem executeCommand_spec (command : Str) (b : ProcBehavior)
    (h : b.spawnError = none) :
    (b.exitCode = some 0 →
      executeCommand command b = .ok (jsTrim b.stdoutChunks.flatten)) ∧
    (b.exitCode ≠ some 0 → ∃ msg, executeCommand command b = .error msg) := by
  constructor
  · intro hz
    simp [executeCommand, h, hz]
  · intro hnz
    unfold executeCommand
    rw [h]
    match hc : b.exitCode with
    | none => exact ⟨_, rfl⟩
    | some n =>
      match n, hnz, hc with
      | Int.ofNat 0, hnz, hc => exact absurd hc hnz
      | Int.ofNat (k + 1), _, hc => exact ⟨_, rfl⟩
      | Int.negSucc k, _, hc => exact ⟨_, rfl⟩

/-- Witness for C8 (amended) at a concrete input. -/
theorem executeCommand_spec_witness :
    ((⟨none, some 0, [str " out "], [], 1⟩ : ProcBehavior).spawnError = none) ∧
    ((⟨none, some 0, [str " out "], [], 1⟩ : ProcBehavior).exitCode = some 0 →
      executeCommand (str "gemini") ⟨none, some 0, [str " out "], [], 1⟩ =
        .ok (jsTrim ([str " out "] : List Str).flatten)) :=
  ⟨rfl, (executeCommand_spec (str "gemini") ⟨none, some 0, [str " out "], [], 1⟩ rfl).1⟩

/-- **C9, counterexample.** The claim attributes an optional hard timeout to
`executeCommand`; but `executeCommand` takes no timeout and sets no timer: a
child that runs for 10^12 ms before closing with code 0 still resolves
normally (it is never terminated and the promise never rejects), and the
result is entirely independent of the duration. -/
theorem executeCommand_no_timeout_counterexample :
    executeCommand (str "gemini") ⟨none, some 0, [str "x"], [], 1000000000000⟩ =
      .ok (str "x") ∧
    executeCommand (str "gemini") ⟨none, some 0, [str "x"], [], 1000000000000⟩ =
      executeCommand (str "gemini") ⟨none, some 0, [str "x"], [], 0⟩ := by
  refine ⟨rfl, rfl⟩

/-- **C9, amended.** The optional hard timeout of the repository's process
running lives in the setup wizard's `runCommand` (default 60000 ms), not in
`executeCommand`: when the supplied timeout expires before the child process
completes, the child is killed (`childProcess.kill()`) and the promise rejects
with `Command timed out after …ms`. -/
theorem runCommand_timeout (command : Str) (b : ProcBehavior) (timeoutMs : Nat)
    (h1 : b.spawnError = none) (h2 : timeoutMs < b.durationMs) :
    runCommand command b timeoutMs =
      ⟨.error (str "Command timed out after " ++ (toString timeoutMs).data ++ str "ms"),
        true⟩ := by
  simp [runCommand, h1, h2]

/-- Witness for C9 (amended) at a concrete input: a child that would run for
120000 ms under the default 60000 ms timeout. -/
theorem runCommand_timeout_witness :
    ((⟨none, some 0, [], [], 120000⟩ : ProcBehavior).spawnError = none ∧
      RUN_COMMAND_DEFAULT_TIMEOUT_MS < (⟨none, some 0, [], [], 120000⟩ : ProcBehavior).durationMs) ∧
    runCommand (str "gemini") ⟨none, some 0, [], [], 120000⟩ RUN_COMMAND_DEFAULT_TIMEOUT_MS =
      ⟨.error (str "Command timed out after " ++ (toString RUN_COMMAND_DEFAULT_TIMEOUT_MS).data
        ++ str "ms"), true⟩ :=
  ⟨⟨rfl, by decide⟩,
    runCommand_timeout (str "gemini") ⟨none, some 0, [], [], 120000⟩
      RUN_COMMAND_DEFAULT_TIMEOUT_MS rfl (by decide)⟩

-- ===========================================================================
-- Execution Orchestrator: executeGeminiCLI from src/utils/geminiExecutor.ts
-- ===========================================================================

/-- `SYSTEM_PROMPT` from src/constants.ts, verbatim (a template literal that
begins and ends with a newline). -/
def SYSTEM_PROMPT : Str := str
  "\nYou are analyzing a codebase on behalf of an AI coding agent.\n\nWHEN TO USE THIS TOOL:\n- The calling agent should use MCP tools (quick_query, deep_research, analyze_directory) FIRST when questions involve repository files or code analysis\n- This reduces the calling agent's context and model usage by offloading heavy reading/analysis to Gemini CLI's large context window\n- Prefer using tools over asking the agent to read files directly\n\nCRITICAL CONSTRAINTS:\n- Read-only analysis ONLY (no write/edit tools available without --yolo flag)\n- Do NOT suggest code changes, patches, or file modifications\n- Do NOT attempt to use run_shell_command or write_file (not available)\n\nOPTIMIZATION FOR TOKEN EFFICIENCY:\n- The calling agent has limited context - be concise but thorough\n- Prioritize KEY findings over exhaustive details\n- Include file paths for all referenced code\n- Use bullet points and structured formatting for clarity\n- If asked about security/architecture/performance, focus ONLY on that dimension\n\nOUTPUT FORMAT:\n- Start with a 2-3 sentence executive summary\n- Provide detailed findings with file path references\n- End with a \"## Files Referenced\" section listing all paths examined\n"

/-- `CLI.FLAGS.MODEL` from src/constants.ts. -/
def CLI_FLAG_MODEL : Str := str "-m"

/-- `CLI.FLAGS.PROMPT` from src/constants.ts. -/
def CLI_FLAG_PROMPT : Str := str "-p"

/-- `CLI.FLAGS.YES` from src/constants.ts (auto-approve file reads). -/
def CLI_FLAG_YES : Str := str "-y"

/-- `CLI.FLAGS.OUTPUT_FORMAT` from src/constants.ts. -/
def CLI_FLAG_OUTPUT_FORMAT : Str := str "--output-format"

/-- `CLI.OUTPUT_FORMATS.JSON` from src/constants.ts. -/
def CLI_OUTPUT_FORMAT_JSON : Str := str "json"

/-- `MODELS.FLASH_DEFAULT` from src/constants.ts. -/
def MODELS_FLASH_DEFAULT : Str := str "gemini-3-flash-preview"

/-- `MODELS.PRO_DEFAULT` from src/constants.ts. -/
def MODELS_PRO_DEFAULT : Str := str "gemini-3-pro-preview"

/-- `MODELS.FLASH_FALLBACK` from src/constants.ts. -/
def MODELS_FLASH_FALLBACK : Str := str "gemini-2.5-flash"

/-- `MODELS.PRO_FALLBACK` from src/constants.ts. -/
def MODELS_PRO_FALLBACK : Str := str "gemini-2.5-pro"

/-- `STATUS_MESSAGES.FALLBACK_RETRY` from src/constants.ts. -/
def STATUS_FALLBACK_RETRY : Str := str "⚡ Retrying with fallback model..."

/-- `STATUS_MESSAGES.AUTO_SELECT_RETRY` from src/constants.ts. -/
def STATUS_AUTO_SELECT_RETRY : Str := str "🔄 Retrying with auto-selected model..."

/-- `ToolName` from src/utils/geminiExecutor.ts. -/
inductive ToolName where
  | quick_query
  | deep_research
  | analyze_directory
  deriving Repr, DecidableEq

/-- `getModelTiers(toolName)` from src/utils/geminiExecutor.ts with the
`MODEL_TIERS` table from src/constants.ts: `[tier1, tier2, tier3]`, where
`none` is tier 3's auto-select sentinel (`null`). -/
def getModelTiers : ToolName → List (Option Str)
  | .quick_query => [some MODELS_FLASH_DEFAULT, some MODELS_FLASH_FALLBACK, none]
  | .deep_research => [some MODELS_PRO_DEFAULT, some MODELS_PRO_FALLBACK, none]
  | .analyze_directory => [some MODELS_FLASH_DEFAULT, some MODELS_FLASH_FALLBACK, none]

/-- JS `haystack.includes(needle)` (substring containment): the needle is a
prefix of some suffix of the haystack. -/
def includes : (haystack needle : Str) → Bool
  | [], needle => needle.isPrefixOf []
  | c :: rest, needle => needle.isPrefixOf (c :: rest) || includes rest needle

/-- `isQuotaError(error)` from src/utils/geminiExecutor.ts.  Errors are
modelled by their message strings (the orchestrator only ever catches `Error`
values thrown by `executeCommand`, whose argument is `error.message`);
`toLowerCase` is modelled by ASCII lowercasing. -/
def isQuotaError (message : Str) : Bool :=
  let m := message.map Char.toLower
  includes m (str "quota") ||
  includes m (str "resource_exhausted") ||
  includes m (str "rate limit") ||
  includes m (str "capacity") ||
  includes m (str "too many requests") ||
  includes m (str "429")

/-- `buildGeminiArgs(prompt, model)` from src/utils/geminiExecutor.ts:
`["-m", model]` when a model is specified, then the mandatory headless flags
`-y`, `--output-format json`, and `-p prompt`; `--yolo` is never added
(read-only enforcement). -/
def buildGeminiArgs (prompt : Str) (model : Option Str) : List Str :=
  (match model with
   | some m => [CLI_FLAG_MODEL, m]
   | none => []) ++
  [CLI_FLAG_YES, CLI_FLAG_OUTPUT_FORMAT, CLI_OUTPUT_FORMAT_JSON, CLI_FLAG_PROMPT, prompt]

/-- The result of `parseGeminiOutput` (src/utils/geminiExecutor.ts).  Its body
is a tolerant sniff over `JSON.parse`, an external library call, so the parse
step is kept abstract: the orchestrator is parameterised over a function
producing this record. -/
structure ParsedOutput where
  text : Str
  tokensUsed : Option Nat
  toolCalls : Option Nat
  filesAccessed : Option (List Str)

/-- `GeminiResponse` from src/utils/geminiExecutor.ts (without `latencyMs`,
which is a wall-clock reading). -/
structure GeminiResponse where
  answer : Str
  filesAccessed : List Str
  tokensUsed : Nat
  toolCalls : Nat
  model : Str

/-- The outcome of one `executeCommand` invocation against the external
Gemini CLI: resolved stdout, or the message of the rejection `Error`. -/
inductive EngineOutcome where
  | ok (output : Str)
  | err (message : Str)

/-- Caller-visible events of one orchestrated call, in order: each tier
attempt with the argument vector passed to the subprocess, and each progress
note the orchestrator emits through `onProgress` before a retry. -/
inductive ExecEvent where
  | attempt (tierIndex : Nat) (args : List Str)
  | progressNote (msg : Str)
  deriving Repr, DecidableEq

/-- The progress note emitted at the top of loop iteration `i` of
`executeGeminiCLI` (`if (i > 0) { … onProgress?.(message + "\n") }`):
nothing for tier 1, `FALLBACK_RETRY` before tier 2, `AUTO_SELECT_RETRY`
before tier 3. -/
def noteFor (i : Nat) : List ExecEvent :=
  if i = 0 then []
  else [.progressNote
    ((if i = 1 then STATUS_FALLBACK_RETRY else STATUS_AUTO_SELECT_RETRY) ++ str "\n")]

/-- The `GeminiResponse` built on a successful tier (src/utils/geminiExecutor.ts
lines 262–271): `parsed.text`, `parsed.filesAccessed || []`,
`parsed.tokensUsed || 0`, `parsed.toolCalls || 0`, `model ?? "auto"`. -/
def mkGeminiResponse (parse : Str → ParsedOutput) (output : Str)
    (model : Option Str) : GeminiResponse :=
  ⟨(parse output).text, (parse output).filesAccessed.getD [],
   (parse output).tokensUsed.getD 0, (parse output).toolCalls.getD 0,
   model.getD (str "auto")⟩

/-- The `for (let i = 0; …)` fallback loop of `executeGeminiCLI`
(src/utils/geminiExecutor.ts lines 235–289), as structural recursion over the
remaining tiers; `i` is the current tier index, `lastError` the last caught
error message.  `engine i` is the outcome of the `executeCommand` invocation
made on iteration `i`.  Returns the event trace and the settled result
(`.error` models the thrown error, propagated unchanged).  The `rest.isEmpty`
test is the source's `i < modelTiers.length - 1`. -/
def execTiers (engine : Nat → EngineOutcome) (parse : Str → ParsedOutput)
    (finalPrompt : Str) :
    List (Option Str) → Nat → Option Str → List ExecEvent × Except Str GeminiResponse
  | [], _, lastError => ([], .error (lastError.getD (str "Gemini CLI execution failed")))
  | model :: rest, i, _ =>
    match engine i with
    | .ok output =>
      (noteFor i ++ [.attempt i (buildGeminiArgs finalPrompt model)],
        .ok (mkGeminiResponse parse output model))
    | .err msg =>
      if isQuotaError msg && !rest.isEmpty then
        let next := execTiers engine parse finalPrompt rest (i + 1) (some msg)
        (noteFor i ++ [.attempt i (buildGeminiArgs finalPrompt model)] ++ next.1, next.2)
      else
        (noteFor i ++ [.attempt i (buildGeminiArgs finalPrompt model)], .error msg)

/-- The separator `executeGeminiCLI` places between the system prompt and the
user's prompt: ``finalPrompt = `${SYSTEM_PROMPT}\n\n---\n\nUSER REQUEST:\n${prompt}` ``. -/
def USER_REQUEST_SEP : Str := str "\n\n---\n\nUSER REQUEST:\n"

/-- `executeGeminiCLI(prompt, toolName, onProgress?)` from
src/utils/geminiExecutor.ts: prepend the fixed system prompt, fetch the
tool's model-tier plan, and run the fallback loop from tier index 0. -/
def executeGeminiCLI (engine : Nat → EngineOutcome) (parse : Str → ParsedOutput)
    (prompt : Str) (toolName : ToolName) : List ExecEvent × Except Str GeminiResponse :=
  execTiers engine parse (SYSTEM_PROMPT ++ USER_REQUEST_SEP ++ prompt)
    (getModelTiers toolName) 0 none

/-- The tier indices of the attempts in a trace, in order. -/
def attemptsOf (trace : List ExecEvent) : List Nat :=
  trace.filterMap fun e =>
    match e with
    | .attempt i _ => some i
    | .progressNote _ => none

-- ===========================================================================
-- Tool-level error classification: the catch block of deep_research.execute
-- (src/tools/deep-research.tool.ts lines 165–198)
-- ===========================================================================

/-- `ERROR_CODES.GEMINI_CLI_NOT_FOUND` from src/constants.ts. -/
def ERROR_CODE_GEMINI_CLI_NOT_FOUND : Str := str "GEMINI_CLI_NOT_FOUND"

/-- `ERROR_CODES.AUTH_MISSING` from src/constants.ts. -/
def ERROR_CODE_AUTH_MISSING : Str := str "AUTH_MISSING"

/-- `ERROR_CODES.QUOTA_EXCEEDED` from src/constants.ts. -/
def ERROR_CODE_QUOTA_EXCEEDED : Str := str "QUOTA_EXCEEDED"

/-- `ERROR_CODES.GEMINI_CLI_ERROR` from src/constants.ts. -/
def ERROR_CODE_GEMINI_CLI_ERROR : Str := str "GEMINI_CLI_ERROR"

/-- The error-code classification a failing `executeGeminiCLI` receives in
`deepResearchTool.execute`'s catch block (src/tools/deep-research.tool.ts
lines 170–182): case-sensitive substring tests on the error message, in
order. -/
def classifyDeepResearchError (errorMessage : Str) : Str :=
  if includes errorMessage (str "not found") || includes errorMessage (str "ENOENT") then
    ERROR_CODE_GEMINI_CLI_NOT_FOUND
  else if includes errorMessage (str "auth") || includes errorMessage (str "login") then
    ERROR_CODE_AUTH_MISSING
  else if includes errorMessage (str "quota") then
    ERROR_CODE_QUOTA_EXCEEDED
  else
    ERROR_CODE_GEMINI_CLI_ERROR

-- ===========================================================================
-- Orchestrator lemmas
-- ===========================================================================

theorem execTiers_ok (engine : Nat → EngineOutcome) (parse : Str → ParsedOutput)
    (fp : Str) (model : Option Str) (rest : List (Option Str)) (i : Nat)
    (le : Option Str) (out : Str) (h : engine i = .ok out) :
    execTiers engine parse fp (model :: rest) i le =
      (noteFor i ++ [.attempt i (buildGeminiArgs fp model)],
        .ok (mkGeminiResponse parse out model)) := by
  simp only [execTiers]
  rw [h]

theorem execTiers_err_stop (engine : Nat → EngineOutcome) (parse : Str → ParsedOutput)
    (fp : Str) (model : Option Str) (rest : List (Option Str)) (i : Nat)
    (le : Option Str) (msg : Str) (h : engine i = .err msg)
    (hstop : isQuotaError msg = false ∨ rest = []) :
    execTiers engine parse fp (model :: rest) i le =
      (noteFor i ++ [.attempt i (buildGeminiArgs fp model)], .error msg) := by
  simp only [execTiers]
  rw [h]
  have hcond : (isQuotaError msg && !rest.isEmpty) = false := by
    rcases hstop with h1 | h1 <;> simp [h1]
  simp [hcond]

theorem execTiers_err_cont (engine : Nat → EngineOutcome) (parse : Str → ParsedOutput)
    (fp : Str) (model : Option Str) (rest : List (Option Str)) (i : Nat)
    (le : Option Str) (msg : Str) (h : engine i = .err msg)
    (hq : isQuotaError msg = true) (hne : rest ≠ []) :
    execTiers engine parse fp (model :: rest) i le =
      (noteFor i ++ [.attempt i (buildGeminiArgs fp model)] ++
        (execTiers engine parse fp rest (i + 1) (some msg)).1,
       (execTiers engine parse fp rest (i + 1) (some msg)).2) := by
  simp only [execTiers]
  rw [h]
  have hcond : (isQuotaError msg && !rest.isEmpty) = true := by
    simp [hq, List.isEmpty_iff, hne]
  simp [hcond]

/-- The canonical event trace after tiers `0 … k` have been attempted. -/
def tierTrace (fp : Str) (tiers : List (Option Str)) (k : Nat) : List ExecEvent :=
  (List.range (k + 1)).flatMap fun l =>
    noteFor l ++ [.attempt l (buildGeminiArgs fp (tiers.getD l none))]

theorem tierTrace_zero (fp : Str) (tiers : List (Option Str)) :
    tierTrace fp tiers 0 =
      noteFor 0 ++ [.attempt 0 (buildGeminiArgs fp (tiers.getD 0 none))] := by
  simp [tierTrace, List.range_succ]

theorem tierTrace_succ (fp : Str) (tiers : List (Option Str)) (k : Nat) :
    tierTrace fp tiers (k + 1) =
      tierTrace fp tiers k ++
        (noteFor (k + 1) ++
          [.attempt (k + 1) (buildGeminiArgs fp (tiers.getD (k + 1) none))]) := by
  simp [tierTrace, List.range_succ]

theorem attemptsOf_append (a b : List ExecEvent) :
    attemptsOf (a ++ b) = attemptsOf a ++ attemptsOf b := by
  simp [attemptsOf]

theorem attemptsOf_noteFor (i : Nat) : attemptsOf (noteFor i) = [] := by
  by_cases h : i = 0 <;> simp [noteFor, h, attemptsOf]

theorem attemptsOf_tierTrace (fp : Str) (tiers : List (Option Str)) (k : Nat) :
    attemptsOf (tierTrace fp tiers k) = List.range (k + 1) := by
  induction k with
  | zero =>
    rw [tierTrace_zero, attemptsOf_append, attemptsOf_noteFor]
    simp [attemptsOf, List.range_succ]
  | succ k ih =>
    rw [tierTrace_succ, attemptsOf_append, attemptsOf_append, attemptsOf_noteFor, ih]
    simp [attemptsOf, List.range_succ]

/-- Full case description of a three-tier fallback run: some `k ≤ 2` exists
with tiers `0 … k` attempted (canonical trace), every tier before `k` failed
with a quota-pattern error, and the run settled at tier `k` — either a
success whose response uses tier `k`'s model, or a failure propagating
tier `k`'s error, which is possible only when that error is not
quota-patterned or `k` is the last tier. -/
theorem execTiers3_shape (engine : Nat → EngineOutcome) (parse : Str → ParsedOutput)
    (fp : Str) (t1 t2 t3 : Option Str) :
    ∃ k, k ≤ 2 ∧
      (execTiers engine parse fp [t1, t2, t3] 0 none).1 = tierTrace fp [t1, t2, t3] k ∧
      (∀ l, l < k → ∃ m, engine l = .err m ∧ isQuotaError m = true) ∧
      ((∃ out, engine k = .ok out ∧
          (execTiers engine parse fp [t1, t2, t3] 0 none).2 =
            .ok (mkGeminiResponse parse out ([t1, t2, t3].getD k none))) ∨
       (∃ m, engine k = .err m ∧
          (execTiers engine parse fp [t1, t2, t3] 0 none).2 = .error m ∧
          (isQuotaError m = false ∨ k = 2))) := by
  rcases h0 : engine 0 with o0 | m0
  · refine ⟨0, by omega, ?_, by omega, Or.inl ⟨o0, h0, ?_⟩⟩
    · rw [execTiers_ok engine parse fp t1 [t2, t3] 0 none o0 h0, tierTrace_zero]
      simp [List.getD]
    · rw [execTiers_ok engine parse fp t1 [t2, t3] 0 none o0 h0]
      simp [List.getD]
  · rcases hq0 : isQuotaError m0 with _ | _
    · refine ⟨0, by omega, ?_, by omega, Or.inr ⟨m0, h0, ?_, Or.inl hq0⟩⟩
      · rw [execTiers_err_stop engine parse fp t1 [t2, t3] 0 none m0 h0 (Or.inl hq0),
          tierTrace_zero]
        simp [List.getD]
      · rw [execTiers_err_stop engine parse fp t1 [t2, t3] 0 none m0 h0 (Or.inl hq0)]
    · have hstep0 := execTiers_err_cont engine parse fp t1 [t2, t3] 0 none m0 h0 hq0
        (by simp)
      rcases h1 : engine 1 with o1 | m1
      · have hstep1 := execTiers_ok engine parse fp t2 [t3] 1 (some m0) o1 h1
        refine ⟨1, by omega, ?_, ?_, Or.inl ⟨o1, h1, ?_⟩⟩
        · rw [hstep0]
          simp only [hstep1, tierTrace_succ, tierTrace_zero]
          simp [List.getD]
        · intro l hl
          have hl0 : l = 0 := by omega
          exact hl0 ▸ ⟨m0, h0, hq0⟩
        · rw [hstep0]
          simp [hstep1, List.getD]
      · rcases hq1 : isQuotaError m1 with _ | _
        · have hstep1 := execTiers_err_stop engine parse fp t2 [t3] 1 (some m0) m1 h1
            (Or.inl hq1)
          refine ⟨1, by omega, ?_, ?_, Or.inr ⟨m1, h1, ?_, Or.inl hq1⟩⟩
          · rw [hstep0]
            simp only [hstep1, tierTrace_succ, tierTrace_zero]
            simp [List.getD]
          · intro l hl
            have hl0 : l = 0 := by omega
            exact hl0 ▸ ⟨m0, h0, hq0⟩
          · rw [hstep0]
            simp [hstep1]
        · have hstep1 := execTiers_err_cont engine parse fp t2 [t3] 1 (some m0) m1 h1 hq1
            (by simp)
          rcases h2 : engine 2 with o2 | m2
          · have hstep2 := execTiers_ok engine parse fp t3 [] 2 (some m1) o2 h2
            refine ⟨2, by omega, ?_, ?_, Or.inl ⟨o2, h2, ?_⟩⟩
            · rw [hstep0]
              simp only [hstep1, hstep2, tierTrace_succ, tierTrace_zero]
              simp [List.getD]
            · intro l hl
              match l, hl with
              | 0, _ => exact ⟨m0, h0, hq0⟩
              | 1, _ => exact ⟨m1, h1, hq1⟩
            · rw [hstep0]
              simp [hstep1, hstep2, List.getD]
          · have hstep2 := execTiers_err_stop engine parse fp t3 [] 2 (some m1) m2 h2
              (Or.inr rfl)
            refine ⟨2, by omega, ?_, ?_, Or.inr ⟨m2, h2, ?_, Or.inr rfl⟩⟩
            · rw [hstep0]
              simp only [hstep1, hstep2, tierTrace_succ, tierTrace_zero]
              simp [List.getD]
            · intro l hl
              match l, hl with
              | 0, _ => exact ⟨m0, h0, hq0⟩
              | 1, _ => exact ⟨m1, h1, hq1⟩
            · rw [hstep0]
              simp [hstep1, hstep2]

theorem getModelTiers_length (tool : ToolName) : (getModelTiers tool).length = 3 := by
  cases tool <;> rfl

theorem executeGeminiCLI_shape (engine : Nat → EngineOutcome) (parse : Str → ParsedOutput)
    (prompt : Str) (tool : ToolName) :
    ∃ k, k ≤ 2 ∧
      (executeGeminiCLI engine parse prompt tool).1 =
        tierTrace (SYSTEM_PROMPT ++ USER_REQUEST_SEP ++ prompt) (getModelTiers tool) k ∧
      (∀ l, l < k → ∃ m, engine l = .err m ∧ isQuotaError m = true) ∧
      ((∃ out, engine k = .ok out ∧
          (executeGeminiCLI engine parse prompt tool).2 =
            .ok (mkGeminiResponse parse out ((getModelTiers tool).getD k none))) ∨
       (∃ m, engine k = .err m ∧
          (executeGeminiCLI engine parse prompt tool).2 = .error m ∧
          (isQuotaError m = false ∨ k = 2))) := by
  cases tool <;>
    (simp only [executeGeminiCLI, getModelTiers]
     exact execTiers3_shape engine parse _ _ _ _)

theorem attempt_notin_noteFor (i : Nat) (args : List Str) (j : Nat) :
    ExecEvent.attempt i args ∉ noteFor j := by
  by_cases h : j = 0 <;> simp [noteFor, h]

/-- A progress note immediately precedes every attempt with index `≥ 1` in a
canonical tier trace. -/
theorem tierTrace_retry_note (fp : Str) (tiers : List (Option Str)) (k : Nat) :
    ∀ i args, ExecEvent.attempt (i + 1) args ∈ tierTrace fp tiers k →
      ∃ pre msg suf,
        tierTrace fp tiers k = pre ++ [.progressNote msg, .attempt (i + 1) args] ++ suf := by
  induction k with
  | zero =>
    intro i args h
    rw [tierTrace_zero] at h
    rcases List.mem_append.mp h with h1 | h1
    · exact absurd h1 (attempt_notin_noteFor _ _ _)
    · rw [List.mem_singleton] at h1
      simp at h1
  | succ k ih =>
    intro i args h
    rw [tierTrace_succ] at h
    rcases List.mem_append.mp h with h1 | h1
    · obtain ⟨pre, msg, suf, hdec⟩ := ih i args h1
      refine ⟨pre, msg,
        suf ++ (noteFor (k + 1) ++
          [.attempt (k + 1) (buildGeminiArgs fp (tiers.getD (k + 1) none))]), ?_⟩
      rw [tierTrace_succ, hdec]
      simp
    · rcases List.mem_append.mp h1 with h2 | h2
      · exact absurd h2 (attempt_notin_noteFor _ _ _)
      · rw [List.mem_singleton] at h2
        have hik : i + 1 = k + 1 ∧ args = buildGeminiArgs fp (tiers.getD (k + 1) none) := by
          cases h2
          exact ⟨rfl, rfl⟩
        refine ⟨tierTrace fp tiers k,
          (if k + 1 = 1 then STATUS_FALLBACK_RETRY else STATUS_AUTO_SELECT_RETRY) ++ str "\n",
          [], ?_⟩
        rw [tierTrace_succ]
        rw [hik.1, hik.2]
        simp [noteFor]

/-- **C5.** During one orchestrated call: tiers are attempted strictly in
order with no skips (the attempted indices are exactly `0 … k` for some
`k < plan length`); tier `i + 1` is attempted iff tier `i` was attempted and
failed with a quota-pattern error and `i` is not the last tier, with a
caller-visible progress note emitted immediately before the retry attempt;
every other failure is propagated immediately and unchanged, with no further
tier attempted. -/
theorem executeGeminiCLI_fallback_policy (engine : Nat → EngineOutcome)
    (parse : Str → ParsedOutput) (prompt : Str) (tool : ToolName) :
    (∃ k, k < (getModelTiers tool).length ∧
      attemptsOf (executeGeminiCLI engine parse prompt tool).1 = List.range (k + 1)) ∧
    (∀ i, (i + 1) ∈ attemptsOf (executeGeminiCLI engine parse prompt tool).1 ↔
      (i ∈ attemptsOf (executeGeminiCLI engine parse prompt tool).1 ∧
       (∃ m, engine i = .err m ∧ isQuotaError m = true) ∧
       i + 1 < (getModelTiers tool).length)) ∧
    (∀ i args,
      ExecEvent.attempt (i + 1) args ∈ (executeGeminiCLI engine parse prompt tool).1 →
      ∃ pre msg suf, (executeGeminiCLI engine parse prompt tool).1 =
        pre ++ [.progressNote msg, .attempt (i + 1) args] ++ suf) ∧
    (∀ i m, i ∈ attemptsOf (executeGeminiCLI engine parse prompt tool).1 →
      engine i = .err m →
      (isQuotaError m = false ∨ i + 1 = (getModelTiers tool).length) →
      (executeGeminiCLI engine parse prompt tool).2 = .error m ∧
      ∀ j, i < j → j ∉ attemptsOf (executeGeminiCLI engine parse prompt tool).1) := by
  obtain ⟨k, hk, htr, hpre, hterm⟩ := executeGeminiCLI_shape engine parse prompt tool
  have hlen := getModelTiers_length tool
  have hatt : attemptsOf (executeGeminiCLI engine parse prompt tool).1 = List.range (k + 1) := by
    rw [htr, attemptsOf_tierTrace]
  refine ⟨⟨k, by omega, hatt⟩, ?_, ?_, ?_⟩
  · intro i
    rw [hatt]
    simp only [List.mem_range]
    constructor
    · intro hik
      have hik' : i < k := by omega
      exact ⟨by omega, hpre i hik', by omega⟩
    · rintro ⟨hmem, ⟨m, hm, hqm⟩, hlt⟩
      by_cases hik : i < k
      · omega
      · have hik' : i = k := by omega
        subst hik'
        rcases hterm with ⟨out, hok, _⟩ | ⟨m', hm', _, hdisj⟩
        · rw [hm] at hok
          cases hok
        · rw [hm] at hm'
          cases hm'
          rcases hdisj with hfalse | hk2
          · rw [hqm] at hfalse
            cases hfalse
          · omega
  · intro i args h
    rw [htr] at h
    obtain ⟨pre, msg, suf, hdec⟩ := tierTrace_retry_note _ _ _ i args h
    exact ⟨pre, msg, suf, by rw [htr, hdec]⟩
  · intro i m hmem hm hother
    rw [hatt] at hmem
    simp only [List.mem_range] at hmem
    by_cases hik : i < k
    · obtain ⟨m', hm', hqm'⟩ := hpre i hik
      rw [hm] at hm'
      cases hm'
      rcases hother with hfalse | hlast
      · rw [hqm'] at hfalse
        cases hfalse
      · omega
    · have hik' : i = k := by omega
      subst hik'
      rcases hterm with ⟨out, hok, _⟩ | ⟨m', hm', hres, _⟩
      · rw [hm] at hok
        cases hok
      · rw [hm] at hm'
        cases hm'
        refine ⟨hres, ?_⟩
        intro j hj
        rw [hatt]
        simp only [List.mem_range]
        omega

/-- A concrete stand-in for `parseGeminiOutput`'s plain-text fallback
(non-JSON output is returned verbatim), used by concrete witnesses. -/
def parseRaw : Str → ParsedOutput := fun s => ⟨s, none, none, none⟩

/-- Witness for C5 at a concrete input: an engine whose first tier fails with
a non-quota error; the failure is propagated unchanged and no further tier is
attempted. -/
theorem executeGeminiCLI_fallback_policy_witness :
    (0 ∈ attemptsOf
        (executeGeminiCLI (fun _ => .err (str "boom")) parseRaw (str "hi") .quick_query).1 ∧
      (fun _ : Nat => EngineOutcome.err (str "boom")) 0 = .err (str "boom") ∧
      isQuotaError (str "boom") = false) ∧
    ((executeGeminiCLI (fun _ => .err (str "boom")) parseRaw (str "hi") .quick_query).2 =
        .error (str "boom") ∧
      ∀ j, 0 < j → j ∉ attemptsOf
        (executeGeminiCLI (fun _ => .err (str "boom")) parseRaw (str "hi") .quick_query).1) := by
  have hmem : 0 ∈ attemptsOf
      (executeGeminiCLI (fun _ => .err (str "boom")) parseRaw (str "hi") .quick_query).1 := by
    have htr := execTiers_err_stop (fun _ => EngineOutcome.err (str "boom")) parseRaw
      (SYSTEM_PROMPT ++ USER_REQUEST_SEP ++ str "hi") (some MODELS_FLASH_DEFAULT)
      [some MODELS_FLASH_FALLBACK, none] 0 none (str "boom") rfl (Or.inl (by decide))
    simp only [executeGeminiCLI, getModelTiers, htr]
    rw [attemptsOf_append, attemptsOf_noteFor]
    simp [attemptsOf]
  exact ⟨⟨hmem, rfl, by decide⟩,
    (executeGeminiCLI_fallback_policy (fun _ => .err (str "boom")) parseRaw
      (str "hi") .quick_query).2.2.2 0 (str "boom") hmem rfl (Or.inl (by decide))⟩

/-- The tier-2 model identifier of each tool's plan (`MODEL_TIERS[tool].tier2`). -/
def tier2Model : ToolName → Str
  | .quick_query => MODELS_FLASH_FALLBACK
  | .deep_research => MODELS_PRO_FALLBACK
  | .analyze_directory => MODELS_FLASH_FALLBACK

/-- **C3 (amended).** If every tier's invocation fails with a quota-pattern
error, `executeGeminiCLI` attempts every tier of the tool's plan in order
exactly once (`[0, 1, 2]`) and then rejects with the *last tier's error
unchanged* (the tool layer classifies that as quota-exhausted only when the
message contains the literal substring `"quota"`); and if tier 1 fails with a
quota signature while tier 2 succeeds, the returned result's `model` field is
tier 2's model identifier. -/
theorem executeGeminiCLI_tier_monotonicity (engine : Nat → EngineOutcome)
    (parse : Str → ParsedOutput) (prompt : Str) (tool : ToolName) :
    ((∀ i, i < 3 → ∃ m, engine i = .err m ∧ isQuotaError m = true) →
      attemptsOf (executeGeminiCLI engine parse prompt tool).1 = [0, 1, 2] ∧
      ∃ m2, engine 2 = .err m2 ∧
        (executeGeminiCLI engine parse prompt tool).2 = .error m2) ∧
    (∀ m0 out, engine 0 = .err m0 → isQuotaError m0 = true → engine 1 = .ok out →
      ∃ r, (executeGeminiCLI engine parse prompt tool).2 = .ok r ∧
        r.model = tier2Model tool) := by
  constructor
  · intro hall
    obtain ⟨k, hk, htr, hpre, hterm⟩ := executeGeminiCLI_shape engine parse prompt tool
    have hk2 : k = 2 := by
      rcases hterm with ⟨out, hok, _⟩ | ⟨m, hm, _, hdisj⟩
      · obtain ⟨m, hm, _⟩ := hall k (by omega)
        rw [hm] at hok
        cases hok
      · rcases hdisj with hfalse | h2
        · obtain ⟨m', hm', hq'⟩ := hall k (by omega)
          rw [hm] at hm'
          cases hm'
          rw [hq'] at hfalse
          cases hfalse
        · exact h2
    subst hk2
    constructor
    · rw [htr, attemptsOf_tierTrace]
      rfl
    · rcases hterm with ⟨out, hok, _⟩ | ⟨m, hm, hres, _⟩
      · obtain ⟨m, hm, _⟩ := hall 2 (by omega)
        rw [hm] at hok
        cases hok
      · exact ⟨m, hm, hres⟩
  · intro m0 out h0 hq0 h1
    cases tool <;>
      (simp only [executeGeminiCLI, getModelTiers]
       rw [execTiers_err_cont _ _ _ _ _ _ _ _ h0 hq0 (by simp),
         execTiers_ok _ _ _ _ _ _ _ _ h1]
       exact ⟨_, rfl, rfl⟩)

/-- Witness for C3 at a concrete input: tier 1 fails with `"quota"`, tier 2
succeeds; the result's model is `deep_research`'s tier-2 identifier. -/
theorem executeGeminiCLI_tier_monotonicity_witness :
    ((fun i : Nat => if i = 0 then EngineOutcome.err (str "quota")
        else EngineOutcome.ok (str "fine")) 0 = .err (str "quota") ∧
      isQuotaError (str "quota") = true) ∧
    ∃ r, (executeGeminiCLI
        (fun i => if i = 0 then .err (str "quota") else .ok (str "fine"))
        parseRaw (str "hi") .deep_research).2 = .ok r ∧
      r.model = tier2Model .deep_research :=
  ⟨⟨rfl, by decide⟩,
    (executeGeminiCLI_tier_monotonicity _ parseRaw (str "hi") .deep_research).2
      (str "quota") (str "fine") rfl (by decide) rfl⟩

/-- **C3, counterexample.** `"429"` is a quota-pattern error (it triggers
fallback on every tier), so an engine failing every tier with `"429"` makes
`executeGeminiCLI` attempt all three tiers and then throw `"429"` — but the
tool layer's classification of that failure is `GEMINI_CLI_ERROR`, not the
quota-exhausted code `QUOTA_EXCEEDED`, because the final classification only
matches the literal substring `"quota"`. -/
theorem executeGeminiCLI_quota_classification_counterexample :
    isQuotaError (str "429") = true ∧
    attemptsOf (executeGeminiCLI (fun _ => .err (str "429")) parseRaw (str "hi")
      .deep_research).1 = [0, 1, 2] ∧
    (executeGeminiCLI (fun _ => .err (str "429")) parseRaw (str "hi") .deep_research).2 =
      .error (str "429") ∧
    classifyDeepResearchError (str "429") = ERROR_CODE_GEMINI_CLI_ERROR ∧
    ERROR_CODE_GEMINI_CLI_ERROR ≠ ERROR_CODE_QUOTA_EXCEEDED := by
  refine ⟨by decide, by decide, rfl, by decide, by decide⟩

/-- **C6.** Whenever the orchestrated execute operation fails, the failure the
caller sees is classified as exactly one of the four distinct conditions
not-found, authentication-missing, quota-exhausted, or generic execution
failure — the classifying if-chain is total, so never a raw unclassified
code. -/
theorem executeGeminiCLI_error_taxonomy (engine : Nat → EngineOutcome)
    (parse : Str → ParsedOutput) (prompt : Str) (tool : ToolName) (m : Str)
    (h : (executeGeminiCLI engine parse prompt tool).2 = .error m) :
    (classifyDeepResearchError m = ERROR_CODE_GEMINI_CLI_NOT_FOUND ∨
     classifyDeepResearchError m = ERROR_CODE_AUTH_MISSING ∨
     classifyDeepResearchError m = ERROR_CODE_QUOTA_EXCEEDED ∨
     classifyDeepResearchError m = ERROR_CODE_GEMINI_CLI_ERROR) ∧
    (ERROR_CODE_GEMINI_CLI_NOT_FOUND ≠ ERROR_CODE_AUTH_MISSING ∧
     ERROR_CODE_GEMINI_CLI_NOT_FOUND ≠ ERROR_CODE_QUOTA_EXCEEDED ∧
     ERROR_CODE_GEMINI_CLI_NOT_FOUND ≠ ERROR_CODE_GEMINI_CLI_ERROR ∧
     ERROR_CODE_AUTH_MISSING ≠ ERROR_CODE_QUOTA_EXCEEDED ∧
     ERROR_CODE_AUTH_MISSING ≠ ERROR_CODE_GEMINI_CLI_ERROR ∧
     ERROR_CODE_QUOTA_EXCEEDED ≠ ERROR_CODE_GEMINI_CLI_ERROR) := by
  refine ⟨?_, by decide, by decide, by decide, by decide, by decide, by decide⟩
  unfold classifyDeepResearchError
  split_ifs <;> simp

/-- Witness for C6 at a concrete input: an engine whose binary is missing
(`ENOENT`), classified as not-found. -/
theorem executeGeminiCLI_error_taxonomy_witness :
    (executeGeminiCLI (fun _ => .err (str "ENOENT")) parseRaw (str "q") .quick_query).2 =
      .error (str "ENOENT") ∧
    ((classifyDeepResearchError (str "ENOENT") = ERROR_CODE_GEMINI_CLI_NOT_FOUND ∨
      classifyDeepResearchError (str "ENOENT") = ERROR_CODE_AUTH_MISSING ∨
      classifyDeepResearchError (str "ENOENT") = ERROR_CODE_QUOTA_EXCEEDED ∨
      classifyDeepResearchError (str "ENOENT") = ERROR_CODE_GEMINI_CLI_ERROR) ∧
     (ERROR_CODE_GEMINI_CLI_NOT_FOUND ≠ ERROR_CODE_AUTH_MISSING ∧
      ERROR_CODE_GEMINI_CLI_NOT_FOUND ≠ ERROR_CODE_QUOTA_EXCEEDED ∧
      ERROR_CODE_GEMINI_CLI_NOT_FOUND ≠ ERROR_CODE_GEMINI_CLI_ERROR ∧
      ERROR_CODE_AUTH_MISSING ≠ ERROR_CODE_QUOTA_EXCEEDED ∧
      ERROR_CODE_AUTH_MISSING ≠ ERROR_CODE_GEMINI_CLI_ERROR ∧
      ERROR_CODE_QUOTA_EXCEEDED ≠ ERROR_CODE_GEMINI_CLI_ERROR)) :=
  ⟨rfl, executeGeminiCLI_error_taxonomy (fun _ => .err (str "ENOENT")) parseRaw
    (str "q") .quick_query (str "ENOENT") rfl⟩

/-- Every attempt recorded by the fallback loop passes `buildGeminiArgs` output
for some tier of the plan. -/
theorem attempt_mem_execTiers (engine : Nat → EngineOutcome) (parse : Str → ParsedOutput)
    (fp : Str) :
    ∀ (tiers : List (Option Str)) (i0 : Nat) (le : Option Str) (i : Nat) (args : List Str),
      ExecEvent.attempt i args ∈ (execTiers engine parse fp tiers i0 le).1 →
      ∃ mo, mo ∈ tiers ∧ args = buildGeminiArgs fp mo := by
  intro tiers
  induction tiers with
  | nil =>
    intro i0 le i args h
    simp [execTiers] at h
  | cons model rest ih =>
    intro i0 le i args h
    rcases he : engine i0 with o | m
    · rw [execTiers_ok engine parse fp model rest i0 le o he] at h
      rcases List.mem_append.mp h with h1 | h1
      · exact absurd h1 (attempt_notin_noteFor _ _ _)
      · rw [List.mem_singleton] at h1
        cases h1
        exact ⟨model, List.mem_cons_self _ _, rfl⟩
    · by_cases hq : isQuotaError m = true
      · by_cases hr : rest = []
        · rw [execTiers_err_stop engine parse fp model rest i0 le m he (Or.inr hr)] at h
          rcases List.mem_append.mp h with h1 | h1
          · exact absurd h1 (attempt_notin_noteFor _ _ _)
          · rw [List.mem_singleton] at h1
            cases h1
            exact ⟨model, List.mem_cons_self _ _, rfl⟩
        · rw [execTiers_err_cont engine parse fp model rest i0 le m he hq hr] at h
          rcases List.mem_append.mp h with h1 | h1
          · rcases List.mem_append.mp h1 with h2 | h2
            · exact absurd h2 (attempt_notin_noteFor _ _ _)
            · rw [List.mem_singleton] at h2
              cases h2
              exact ⟨model, List.mem_cons_self _ _, rfl⟩
          · obtain ⟨mo, hmo, hargs⟩ := ih (i0 + 1) (some m) i args h1
            exact ⟨mo, List.mem_cons_of_mem _ hmo, hargs⟩
      · rw [execTiers_err_stop engine parse fp model rest i0 le m he
          (Or.inl (by simpa using hq))] at h
        rcases List.mem_append.mp h with h1 | h1
        · exact absurd h1 (attempt_notin_noteFor _ _ _)
        · rw [List.mem_singleton] at h1
          cases h1
          exact ⟨model, List.mem_cons_self _ _, rfl⟩

/-- The concrete argument vector of the tier-1 invocation for user prompt
`"hi"` under `quick_query`. -/
def c4Args : List Str :=
  buildGeminiArgs (SYSTEM_PROMPT ++ USER_REQUEST_SEP ++ str "hi")
    (some MODELS_FLASH_DEFAULT)

/-- **C4, code bug.** The safety-preamble half of the claim holds (the `-p`
argument is the fixed system prompt prepended to the user's prompt) and the
literal `--yolo` flag indeed never appears — but `buildGeminiArgs`
unconditionally pushes `-y` (`CLI.FLAGS.YES`) into every argument vector,
and the repository's own PRD (docs/project-overview-PRD.md: Gemini CLI is
read-only only "without the `--yolo` or `-y` flags") identifies `-y` as the
write/execute-enabling alias of `--yolo`.  So, contradicting the claimed
invariant and the code's own "read-only enforcement" comment, every
invocation does contain a write/execute-granting flag.  Evaluated here at a
concrete failing input: the tier-1 `quick_query` invocation for prompt
`"hi"`. -/
theorem executeGeminiCLI_yes_flag_code_bug :
    (∀ (fp : Str) (mo : Option Str), CLI_FLAG_YES ∈ buildGeminiArgs fp mo) ∧
    CLI_FLAG_YES = str "-y" ∧
    c4Args = [CLI_FLAG_MODEL, MODELS_FLASH_DEFAULT, CLI_FLAG_YES, CLI_FLAG_OUTPUT_FORMAT,
      CLI_OUTPUT_FORMAT_JSON, CLI_FLAG_PROMPT,
      SYSTEM_PROMPT ++ USER_REQUEST_SEP ++ str "hi"] ∧
    ExecEvent.attempt 0 c4Args ∈
      (executeGeminiCLI (fun _ => .ok (str "done")) parseRaw (str "hi") .quick_query).1 ∧
    str "-y" ∈ c4Args ∧
    str "--yolo" ∉ c4Args := by
  refine ⟨?_, rfl, rfl, ?_, by decide, by decide⟩
  · intro fp mo
    cases mo <;> simp [buildGeminiArgs, CLI_FLAG_YES]
  · simp only [executeGeminiCLI, getModelTiers]
    rw [execTiers_ok (fun _ => EngineOutcome.ok (str "done")) parseRaw
      (SYSTEM_PROMPT ++ USER_REQUEST_SEP ++ str "hi") (some MODELS_FLASH_DEFAULT)
      [some MODELS_FLASH_FALLBACK, none] 0 none (str "done") rfl]
    simp [noteFor, c4Args]


-- ===========================================================================
-- Path Guard: validatePath / isWithinProjectRoot from src/utils/pathValidator.ts,
-- over a model of Node's POSIX path functions (resolve, normalize, isAbsolute)
-- ===========================================================================

/-- Split a character list at every `'/'` (the segments of a POSIX path,
including empty segments).  Always returns a non-empty list. -/
def splitSlash : Str → List Str
  | [] => [[]]
  | c :: cs =>
    if c = '/' then [] :: splitSlash cs
    else
      match splitSlash cs with
      | s :: t => (c :: s) :: t
      | [] => [[c]]

/-- One step of Node's `normalizeString` (the segment processor behind
`path.normalize`/`path.resolve`): empty and `.` segments are dropped; `..`
pops the previous segment when one exists (and that segment is not itself a
retained `..`), is retained when `allowAboveRoot` (relative paths), and is
dropped otherwise (absolute paths cannot go above `/`). -/
def normStep (allowAbove : Bool) (acc : List Str) (seg : Str) : List Str :=
  if seg = [] ∨ seg = str "." then acc
  else if seg = str ".." then
    if acc ≠ [] ∧ acc.getLast? ≠ some (str "..") then acc.dropLast
    else if allowAbove then acc ++ [seg] else acc
  else acc ++ [seg]

/-- Node's `normalizeString`: process all segments left to right. -/
def normSegs (allowAbove : Bool) (segs : List Str) : List Str :=
  segs.foldl (normStep allowAbove) []

/-- Join segments with `'/'`. -/
def interc : List Str → Str
  | [] => []
  | [a] => a
  | a :: b :: t => a ++ '/' :: interc (b :: t)

/-- Render an absolute path from its (already normalized) segments:
`"/" + segments.join("/")`; the empty segment list renders as `"/"`. -/
def renderAbs (segs : List Str) : Str := '/' :: interc segs

/-- Node `path.posix.isAbsolute`: non-empty and starting with `'/'`. -/
def isAbsolute : Str → Bool
  | '/' :: _ => true
  | _ => false

/-- Node `path.posix.resolve(p)` for an *absolute* `p` (the only way the
validator calls single-argument `resolve`; a relative argument would consult
the process working directory): `'/' + normalizeString(p, false)`. -/
def posixResolveAbs (p : Str) : Str :=
  renderAbs (normSegs false (splitSlash p))

/-- Node `path.posix.resolve(base, p)` for an *absolute* `base`: `p` itself
resolved when absolute, otherwise `base + "/" + p` resolved. -/
def posixResolveFrom (base p : Str) : Str :=
  if isAbsolute p then posixResolveAbs p
  else posixResolveAbs (base ++ '/' :: p)

/-- Node `path.posix.normalize`: empty input gives `"."`; otherwise the
segments are normalized (`..` kept only for relative paths), and the
original's leading `/` and trailing `/` are preserved around the result. -/
def posixNormalize (s : Str) : Str :=
  if s = [] then str "."
  else
    let isAbs := isAbsolute s
    let trailing := s.getLast? == some '/'
    let body := interc (normSegs (!isAbs) (splitSlash s))
    if body = [] then
      if isAbs then str "/" else if trailing then str "./" else str "."
    else
      ((if isAbs then '/' :: body else body) ++ if trailing then str "/" else [])

/-- `PathValidationResult` from src/types.ts. -/
structure PathValidationResult where
  input : Str
  resolved : Str
  «exists» : Bool
  allowed : Bool
  reason : Option Str
  deriving Repr, DecidableEq

/-- `isWithinProjectRoot(absolutePath, projectRoot)` from
src/utils/pathValidator.ts: normalize both, append a trailing separator to
the root when it lacks one, and test equality-with-root or
starts-with-root-plus-separator. -/
def isWithinProjectRoot (absolutePath projectRoot : Str) : Bool :=
  let normalizedPath := posixNormalize absolutePath
  let normalizedRoot := posixNormalize projectRoot
  let rootWithSep := if normalizedRoot.getLast? == some '/' then normalizedRoot
                     else normalizedRoot ++ ['/']
  normalizedPath == normalizedRoot || rootWithSep.isPrefixOf normalizedPath

/-- `validatePath(inputPath, projectRoot)` from src/utils/pathValidator.ts.
The filesystem (`fs.accessSync`) is modelled by the predicate `fsExists`. -/
def validatePath (fsExists : Str → Bool) (inputPath projectRoot : Str) :
    PathValidationResult :=
  let normalizedRoot := posixResolveAbs projectRoot
  let resolved0 := if isAbsolute inputPath then posixResolveAbs inputPath
                   else posixResolveFrom normalizedRoot inputPath
  let resolved := posixNormalize resolved0
  let allowed := isWithinProjectRoot resolved normalizedRoot
  let exists0 := allowed && fsExists resolved
  { input := inputPath
    resolved := resolved
    «exists» := exists0
    allowed := allowed
    reason :=
      if !allowed then
        if includes inputPath (str "..") then
          some (str "Path contains parent directory traversal (..)")
        else some (str "Path is outside project root")
      else if !exists0 then some (str "Path does not exist")
      else none }

/-- The component list of the normalized absolute form of a path (the
spec-side notion used to define file-tree descendance). -/
def canonSegsAbs (s : Str) : List Str := normSegs false (splitSlash s)

/-- Spec-side notion of strict descendance: the normalized components of the
parent are a strict prefix of the normalized components of the child. -/
def IsStrictDescendantOf (child parent : Str) : Prop :=
  ∃ extra, extra ≠ [] ∧ canonSegsAbs child = canonSegsAbs parent ++ extra

-- ===========================================================================
-- Path lemmas: splitting, normalization and rendering of canonical paths
-- ===========================================================================

theorem splitSlash_ne_nil (s : Str) : splitSlash s ≠ [] := by
  induction s with
  | nil => simp [splitSlash]
  | cons c cs ih =>
    unfold splitSlash
    by_cases hc : c = '/'
    · simp [hc]
    · rw [if_neg hc]
      cases h : splitSlash cs with
      | nil => simp
      | cons a t => simp

theorem splitSlash_no_slash (s : Str) : ∀ seg ∈ splitSlash s, '/' ∉ seg := by
  induction s with
  | nil =>
    intro seg h
    simp [splitSlash] at h
    subst h
    simp
  | cons c cs ih =>
    intro seg h
    unfold splitSlash at h
    by_cases hc : c = '/'
    · rw [if_pos hc] at h
      rcases List.mem_cons.mp h with h1 | h1
      · subst h1; simp
      · exact ih seg h1
    · rw [if_neg hc] at h
      cases hs : splitSlash cs with
      | nil => exact absurd hs (splitSlash_ne_nil cs)
      | cons a t =>
        rw [hs] at h
        rcases List.mem_cons.mp h with h1 | h1
        · subst h1
          intro hmem
          rcases List.mem_cons.mp hmem with h2 | h2
          · exact hc h2.symm
          · exact ih a (by rw [hs]; exact List.mem_cons_self a t) h2
        · exact ih seg (by rw [hs]; exact List.mem_cons_of_mem a h1)

theorem splitSlash_append (a : Str) (ha : '/' ∉ a) :
    ∀ cs s t, splitSlash cs = s :: t → splitSlash (a ++ cs) = (a ++ s) :: t := by
  induction a with
  | nil =>
    intro cs s t h
    simpa using h
  | cons x xs ih =>
    intro cs s t h
    have hx : x ≠ '/' := fun hxx => ha (hxx ▸ List.mem_cons_self x xs)
    have hxs : '/' ∉ xs := fun hm => ha (List.mem_cons_of_mem x hm)
    have hrec := ih hxs cs s t h
    show splitSlash (x :: (xs ++ cs)) = ((x :: xs) ++ s) :: t
    unfold splitSlash
    rw [if_neg hx, hrec]
    rfl

theorem splitSlash_noslash (a : Str) (ha : '/' ∉ a) : splitSlash a = [a] := by
  have h := splitSlash_append a ha [] [] [] rfl
  simpa using h

/-- A path component that survives normalization: non-empty, not `.`, not
`..`, and free of separators. -/
def GoodSeg (seg : Str) : Prop :=
  seg ≠ [] ∧ seg ≠ str "." ∧ seg ≠ str ".." ∧ '/' ∉ seg

/-- All components good. -/
def GoodSegs (segs : List Str) : Prop := ∀ seg ∈ segs, GoodSeg seg

theorem normStep_good (acc : List Str) (seg : Str) (hseg : '/' ∉ seg)
    (hacc : GoodSegs acc) : GoodSegs (normStep false acc seg) := by
  unfold normStep
  by_cases h1 : seg = [] ∨ seg = str "."
  · rw [if_pos h1]; exact hacc
  · rw [if_neg h1]
    by_cases h2 : seg = str ".."
    · rw [if_pos h2]
      by_cases h3 : acc ≠ [] ∧ acc.getLast? ≠ some (str "..")
      · rw [if_pos h3]
        intro x hx
        exact hacc x (List.mem_of_mem_dropLast hx)
      · rw [if_neg h3]
        simp only [Bool.false_eq_true, if_false]
        exact hacc
    · rw [if_neg h2]
      intro x hx
      rcases List.mem_append.mp hx with hx1 | hx1
      · exact hacc x hx1
      · rw [List.mem_singleton] at hx1
        subst hx1
        push_neg at h1
        exact ⟨h1.1, h1.2, h2, hseg⟩

theorem normSegs_good (segs : List Str) (h : ∀ seg ∈ segs, '/' ∉ seg) :
    GoodSegs (normSegs false segs) := by
  unfold normSegs
  suffices hgen : ∀ acc, GoodSegs acc → GoodSegs (segs.foldl (normStep false) acc) by
    exact hgen [] (by intro x hx; simp at hx)
  induction segs with
  | nil => intro acc hacc; exact hacc
  | cons s ss ih =>
    intro acc hacc
    simp only [List.foldl_cons]
    exact ih (fun seg hm => h seg (List.mem_cons_of_mem s hm)) _
      (normStep_good acc s (h s (List.mem_cons_self s ss)) hacc)

theorem foldl_normStep_id (segs : List Str)
    (h : ∀ seg ∈ segs, seg ≠ [] ∧ seg ≠ str "." ∧ seg ≠ str "..") :
    ∀ acc, segs.foldl (normStep false) acc = acc ++ segs := by
  induction segs with
  | nil => intro acc; simp
  | cons s ss ih =>
    intro acc
    obtain ⟨hs1, hs2, hs3⟩ := h s (List.mem_cons_self s ss)
    have hstep : normStep false acc s = acc ++ [s] := by
      unfold normStep
      rw [if_neg (by tauto), if_neg hs3]
    simp only [List.foldl_cons, hstep]
    rw [ih (fun seg hm => h seg (List.mem_cons_of_mem s hm)) (acc ++ [s])]
    simp

theorem interc_ne_nil (segs : List Str) (h1 : segs ≠ [])
    (h2 : ∀ seg ∈ segs, seg ≠ []) : interc segs ≠ [] := by
  cases segs with
  | nil => exact absurd rfl h1
  | cons a rest =>
    cases rest with
    | nil => exact h2 a (List.mem_cons_self a [])
    | cons b t =>
      show a ++ '/' :: interc (b :: t) ≠ []
      simp

theorem interc_getLast (segs : List Str) (hg : GoodSegs segs) (hne : segs ≠ []) :
    (interc segs).getLast? ≠ some '/' := by
  induction segs with
  | nil => exact absurd rfl hne
  | cons a rest ih =>
    cases rest with
    | nil =>
      show a.getLast? ≠ some '/'
      intro hcontra
      exact (hg a (List.mem_cons_self a [])).2.2.2 (List.mem_of_mem_getLast? hcontra)
    | cons b t =>
      show (a ++ '/' :: interc (b :: t)).getLast? ≠ some '/'
      have hbt : interc (b :: t) ≠ [] :=
        interc_ne_nil (b :: t) (by simp)
          (fun seg hm => (hg seg (List.mem_cons_of_mem a hm)).1)
      rw [List.getLast?_append_of_ne_nil a (by simp)]
      have hsplit : ('/' :: interc (b :: t)) = ['/'] ++ interc (b :: t) := rfl
      rw [hsplit, List.getLast?_append_of_ne_nil ['/'] hbt]
      exact ih (fun seg hm => hg seg (List.mem_cons_of_mem a hm)) (by simp)

theorem splitSlash_interc (segs : List Str) (hne : segs ≠ [])
    (h : ∀ seg ∈ segs, '/' ∉ seg) : splitSlash (interc segs) = segs := by
  induction segs with
  | nil => exact absurd rfl hne
  | cons a rest ih =>
    cases rest with
    | nil =>
      show splitSlash a = [a]
      exact splitSlash_noslash a (h a (List.mem_cons_self a []))
    | cons b t =>
      show splitSlash (a ++ '/' :: interc (b :: t)) = a :: b :: t
      have hX : splitSlash (interc (b :: t)) = b :: t :=
        ih (by simp) (fun seg hm => h seg (List.mem_cons_of_mem a hm))
      have hcs : splitSlash ('/' :: interc (b :: t)) = [] :: b :: t := by
        show (if '/' = '/' then [] :: splitSlash (interc (b :: t))
          else _) = [] :: b :: t
        rw [if_pos rfl, hX]
      have := splitSlash_append a (h a (List.mem_cons_self a _))
        ('/' :: interc (b :: t)) [] (b :: t) hcs
      simpa using this

theorem normSegs_cons_nil (segs : List Str) :
    normSegs false ([] :: segs) = normSegs false segs := by
  simp [normSegs, normStep]

theorem canonSegs_render (segs : List Str) (hg : GoodSegs segs) :
    normSegs false (splitSlash (renderAbs segs)) = segs := by
  have hsplit : splitSlash (renderAbs segs) = [] :: splitSlash (interc segs) := by
    show (if '/' = '/' then [] :: splitSlash (interc segs) else _) =
      [] :: splitSlash (interc segs)
    rw [if_pos rfl]
  rw [hsplit, normSegs_cons_nil]
  cases hseg : segs with
  | nil =>
    show normSegs false (splitSlash (interc [])) = []
    rfl
  | cons a rest =>
    rw [← hseg]
    have hne : segs ≠ [] := by rw [hseg]; simp
    rw [splitSlash_interc segs hne (fun seg hm => (hg seg hm).2.2.2)]
    unfold normSegs
    rw [foldl_normStep_id segs (fun seg hm =>
      ⟨(hg seg hm).1, (hg seg hm).2.1, (hg seg hm).2.2.1⟩) []]
    simp

theorem normalize_render (segs : List Str) (hg : GoodSegs segs) :
    posixNormalize (renderAbs segs) = renderAbs segs := by
  cases hseg : segs with
  | nil => rfl
  | cons a rest =>
    rw [← hseg]
    have hne : segs ≠ [] := by rw [hseg]; simp
    have hint : interc segs ≠ [] :=
      interc_ne_nil segs hne (fun seg hm => (hg seg hm).1)
    have hlast : (renderAbs segs).getLast? ≠ some '/' := by
      show (['/'] ++ interc segs).getLast? ≠ some '/'
      rw [List.getLast?_append_of_ne_nil ['/'] hint]
      exact interc_getLast segs hg hne
    unfold posixNormalize
    rw [if_neg (by simp [renderAbs])]
    have htrail : ((renderAbs segs).getLast? == some '/') = false := by
      rw [beq_eq_false_iff_ne]
      exact hlast
    have habs : isAbsolute (renderAbs segs) = true := rfl
    simp only [habs, htrail, Bool.not_true]
    rw [canonSegs_render segs hg]
    simp only [if_neg hint, Bool.false_eq_true, if_false]
    simp [renderAbs]

theorem seg_align (x : Str) : ∀ (y u v : Str), '/' ∉ x → '/' ∉ y →
    ((x ++ '/' :: u) <+: (y ++ '/' :: v) ↔ x = y ∧ u <+: v) := by
  induction x with
  | nil =>
    intro y u v _ hy
    cases y with
    | nil => simp [List.cons_prefix_cons]
    | cons c ys =>
      constructor
      · intro h
        rw [List.nil_append, List.cons_append] at h
        have hc := (List.cons_prefix_cons.mp h).1
        have : '/' ∈ c :: ys := by rw [← hc]; exact List.mem_cons_self _ _
        exact absurd this hy
      · rintro ⟨heq, _⟩
        exact absurd heq.symm (List.cons_ne_nil c ys)
  | cons a xs ih =>
    intro y u v hx hy
    cases y with
    | nil =>
      constructor
      · intro h
        rw [List.cons_append, List.nil_append] at h
        have hc := (List.cons_prefix_cons.mp h).1
        have : '/' ∈ a :: xs := by rw [hc]; exact List.mem_cons_self _ _
        exact absurd this hx
      · rintro ⟨heq, _⟩
        exact absurd heq (List.cons_ne_nil a xs)
    | cons b ys =>
      have hx' : '/' ∉ xs := fun hm => hx (List.mem_cons_of_mem a hm)
      have hy' : '/' ∉ ys := fun hm => hy (List.mem_cons_of_mem b hm)
      rw [List.cons_append, List.cons_append, List.cons_prefix_cons, ih ys u v hx' hy']
      constructor
      · rintro ⟨hab, heq, hu⟩
        exact ⟨by rw [hab, heq], hu⟩
      · rintro ⟨heq, hu⟩
        injection heq with h1 h2
        exact ⟨h1, h2, hu⟩

theorem interc_sep_prefix_iff : ∀ (B A : List Str), GoodSegs A → GoodSegs B → B ≠ [] →
    ((interc B ++ ['/']) <+: interc A ↔ ∃ extra, extra ≠ [] ∧ A = B ++ extra) := by
  intro B
  induction B with
  | nil =>
    intro A _ _ h
    exact absurd rfl h
  | cons b B' ihB =>
    intro A hgA hgB _
    cases B' with
    | nil =>
      cases A with
      | nil =>
        constructor
        · intro h
          have := List.prefix_nil.mp h
          simp at this
        · rintro ⟨extra, hne, heq⟩
          exact absurd heq (by simp)
      | cons a A' =>
        cases A' with
        | nil =>
          constructor
          · intro h
            have hmem : '/' ∈ a := h.subset (by simp)
            exact absurd hmem (hgA a (List.mem_cons_self a _)).2.2.2
          · rintro ⟨extra, hne, heq⟩
            have hlen := congrArg List.length heq
            simp at hlen
            exact absurd hlen hne
        | cons a' A'' =>
          have halign := seg_align b a [] (interc (a' :: A''))
            (hgB b (List.mem_cons_self _ _)).2.2.2 (hgA a (List.mem_cons_self _ _)).2.2.2
          constructor
          · intro h
            have hba := (halign.mp h).1
            exact ⟨a' :: A'', by simp, by rw [hba]; rfl⟩
          · rintro ⟨extra, hne, heq⟩
            injection heq with h1 h2
            exact halign.mpr ⟨h1.symm, List.nil_prefix⟩
    | cons b' B'' =>
      cases A with
      | nil =>
        constructor
        · intro h
          have := List.prefix_nil.mp h
          simp at this
        · rintro ⟨extra, hne, heq⟩
          exact absurd heq (by simp)
      | cons a A' =>
        cases A' with
        | nil =>
          constructor
          · intro h
            have hmem : '/' ∈ a := h.subset (by simp)
            exact absurd hmem (hgA a (List.mem_cons_self a _)).2.2.2
          · rintro ⟨extra, hne, heq⟩
            have hlen := congrArg List.length heq
            simp at hlen
        | cons a' A'' =>
          have hgB' : GoodSegs (b' :: B'') := fun seg hm => hgB seg (List.mem_cons_of_mem b hm)
          have hgA' : GoodSegs (a' :: A'') := fun seg hm => hgA seg (List.mem_cons_of_mem a hm)
          have halign := seg_align b a (interc (b' :: B'') ++ ['/']) (interc (a' :: A''))
            (hgB b (List.mem_cons_self _ _)).2.2.2 (hgA a (List.mem_cons_self _ _)).2.2.2
          have hshape : interc (b :: b' :: B'') ++ ['/'] =
              b ++ '/' :: (interc (b' :: B'') ++ ['/']) := by
            show (b ++ '/' :: interc (b' :: B'')) ++ ['/'] = _
            simp
          constructor
          · intro h
            rw [hshape] at h
            obtain ⟨hba, hpre⟩ := halign.mp h
            obtain ⟨extra, hne, heq⟩ := (ihB (a' :: A'') hgA' hgB' (by simp)).mp hpre
            cases hba
            exact ⟨extra, hne, by rw [heq]; simp⟩
          · rintro ⟨extra, hne, heq⟩
            injection heq with h1 h2
            rw [hshape]
            refine halign.mpr ⟨h1.symm, ?_⟩
            exact (ihB (a' :: A'') hgA' hgB' (by simp)).mpr ⟨extra, hne, h2⟩

theorem canonSegsAbs_render (segs : List Str) (hg : GoodSegs segs) :
    canonSegsAbs (renderAbs segs) = segs :=
  canonSegs_render segs hg

theorem renderAbs_inj (A B : List Str) (hgA : GoodSegs A) (hgB : GoodSegs B)
    (h : renderAbs A = renderAbs B) : A = B := by
  have h1 := canonSegsAbs_render A hgA
  rw [h, canonSegsAbs_render B hgB] at h1
  exact h1.symm

theorem isWithin_render (A B : List Str) (hgA : GoodSegs A) (hgB : GoodSegs B) :
    isWithinProjectRoot (renderAbs A) (renderAbs B) = true ↔
      (A = B ∨ ∃ extra, extra ≠ [] ∧ A = B ++ extra) := by
  unfold isWithinProjectRoot
  simp only [normalize_render A hgA, normalize_render B hgB]
  by_cases hB : B = []
  · subst hB
    constructor
    · intro _
      cases A with
      | nil => exact Or.inl rfl
      | cons a t => exact Or.inr ⟨a :: t, by simp, rfl⟩
    · intro _
      simp [renderAbs, List.isPrefixOf]
      exact Or.inr List.nil_prefix
  · have hint : interc B ≠ [] := interc_ne_nil B hB (fun seg hm => (hgB seg hm).1)
    have hlastB : ((renderAbs B).getLast? == some '/') = false := by
      rw [beq_eq_false_iff_ne]
      show (['/'] ++ interc B).getLast? ≠ some '/'
      rw [List.getLast?_append_of_ne_nil ['/'] hint]
      exact interc_getLast B hgB hB
    simp only [hlastB, Bool.false_eq_true, if_false]
    rw [Bool.or_eq_true, beq_iff_eq, List.isPrefixOf_iff_prefix]
    have hshape : renderAbs B ++ ['/'] = '/' :: (interc B ++ ['/']) := by
      show ('/' :: interc B) ++ ['/'] = _
      simp
    constructor
    · rintro (h | h)
      · exact Or.inl (renderAbs_inj A B hgA hgB h)
      · rw [hshape, renderAbs, List.cons_prefix_cons] at h
        exact Or.inr ((interc_sep_prefix_iff B A hgA hgB hB).mp h.2)
    · rintro (h | h)
      · exact Or.inl (by rw [h])
      · right
        rw [hshape, renderAbs, List.cons_prefix_cons]
        exact ⟨rfl, (interc_sep_prefix_iff B A hgA hgB hB).mpr h⟩

/-- **C1.** For every input `p` and absolute trusted root `r`,
`validatePath(p, r).allowed` is true iff the normalized absolute resolution
of `p` (resolved against the root when `p` is relative) equals the normalized
root or is a strict descendant of it (the root's components are a strict
prefix of the resolution's components) — the trailing-separator containment
test is exactly this relation, so a sibling directory whose name merely
extends the root's name is not allowed. -/
theorem validatePath_allowed_iff (fsExists : Str → Bool) (p r : Str)
    (hr : isAbsolute r = true) :
    (validatePath fsExists p r).allowed = true ↔
      ((validatePath fsExists p r).resolved = posixResolveAbs r ∨
        IsStrictDescendantOf (validatePath fsExists p r).resolved (posixResolveAbs r)) := by
  have hgB : GoodSegs (canonSegsAbs r) := normSegs_good _ (splitSlash_no_slash r)
  have hres : ∃ A, GoodSegs A ∧ (validatePath fsExists p r).resolved = renderAbs A ∧
      (validatePath fsExists p r).allowed =
        isWithinProjectRoot (renderAbs A) (renderAbs (canonSegsAbs r)) := by
    by_cases habs : isAbsolute p = true
    · refine ⟨canonSegsAbs p, normSegs_good _ (splitSlash_no_slash p), ?_, ?_⟩
      · show posixNormalize (if isAbsolute p = true then posixResolveAbs p
          else posixResolveFrom (posixResolveAbs r) p) = _
        rw [if_pos habs]
        exact normalize_render (canonSegsAbs p) (normSegs_good _ (splitSlash_no_slash p))
      · show isWithinProjectRoot
          (posixNormalize (if isAbsolute p = true then posixResolveAbs p
            else posixResolveFrom (posixResolveAbs r) p)) (posixResolveAbs r) = _
        rw [if_pos habs]
        rw [show posixNormalize (posixResolveAbs p) = renderAbs (canonSegsAbs p) from
          normalize_render (canonSegsAbs p) (normSegs_good _ (splitSlash_no_slash p))]
        rfl
    · refine ⟨canonSegsAbs (posixResolveAbs r ++ '/' :: p),
        normSegs_good _ (splitSlash_no_slash _), ?_, ?_⟩
      · show posixNormalize (if isAbsolute p = true then posixResolveAbs p
          else posixResolveFrom (posixResolveAbs r) p) = _
        rw [if_neg habs]
        show posixNormalize (if isAbsolute p = true then posixResolveAbs p
          else posixResolveAbs (posixResolveAbs r ++ '/' :: p)) = _
        rw [if_neg habs]
        exact normalize_render _ (normSegs_good _ (splitSlash_no_slash _))
      · show isWithinProjectRoot
          (posixNormalize (if isAbsolute p = true then posixResolveAbs p
            else posixResolveFrom (posixResolveAbs r) p)) (posixResolveAbs r) = _
        rw [if_neg habs]
        show isWithinProjectRoot
          (posixNormalize (if isAbsolute p = true then posixResolveAbs p
            else posixResolveAbs (posixResolveAbs r ++ '/' :: p))) (posixResolveAbs r) = _
        rw [if_neg habs]
        rw [show posixNormalize (posixResolveAbs (posixResolveAbs r ++ '/' :: p)) =
            renderAbs (canonSegsAbs (posixResolveAbs r ++ '/' :: p)) from
          normalize_render _ (normSegs_good _ (splitSlash_no_slash _))]
        rfl
  obtain ⟨A, hgA, hresolved, hallowed⟩ := hres
  rw [hresolved, hallowed]
  rw [show posixResolveAbs r = renderAbs (canonSegsAbs r) from rfl]
  rw [isWithin_render A (canonSegsAbs r) hgA hgB]
  constructor
  · rintro (h | ⟨extra, hne, heq⟩)
    · exact Or.inl (by rw [h])
    · refine Or.inr ⟨extra, hne, ?_⟩
      rw [canonSegsAbs_render A hgA, canonSegsAbs_render (canonSegsAbs r) hgB]
      exact heq
  · rintro (h | ⟨extra, hne, heq⟩)
    · exact Or.inl (renderAbs_inj A (canonSegsAbs r) hgA hgB h)
    · refine Or.inr ⟨extra, hne, ?_⟩
      rw [canonSegsAbs_render A hgA, canonSegsAbs_render (canonSegsAbs r) hgB] at heq
      exact heq

/-- Witness for C1 at the claim's own sibling-collision input: root
`/a/project`, candidate `/a/project-evil` — not allowed, and the equivalence
instantiates concretely. -/
theorem validatePath_allowed_iff_witness :
    isAbsolute (str "/a/project") = true ∧
    ((validatePath (fun _ => true) (str "/a/project-evil") (str "/a/project")).allowed = true ↔
      ((validatePath (fun _ => true) (str "/a/project-evil") (str "/a/project")).resolved =
          posixResolveAbs (str "/a/project") ∨
        IsStrictDescendantOf
          (validatePath (fun _ => true) (str "/a/project-evil") (str "/a/project")).resolved
          (posixResolveAbs (str "/a/project")))) ∧
    (validatePath (fun _ => true) (str "/a/project-evil") (str "/a/project")).allowed = false :=
  ⟨by decide,
    validatePath_allowed_iff (fun _ => true) (str "/a/project-evil") (str "/a/project")
      (by decide),
    by decide⟩
